import Mathlib

/-!
Shallow embedding of `src/transitive_trust.rs` (openrankprotocol/algos):
the weighted trust graph (`Node`, `Graph`) and the priority-frontier
relaxation engine (`compute_scores`), together with the demonstration
graph built by `run_job`.

Modelling choices:
* `f32` scores and weights are modelled as exact rationals (`ℚ`);
* the `priority_queue` crate's queue (unique items; `push` on a present
  item replaces its priority) is modelled as an association list with a
  max-priority pop that breaks ties towards the earliest entry;
* `HashMap` iteration order is modelled by insertion order of the
  association lists;
* the Rust `as u32` cast of a score is the saturating truncation `toU32`;
* the `unwrap` panics on graph lookups are modelled by
  `Err.NodeNotFound` (score-map lookups by `Err.MissingScore`), and
  `compute_scores` returns `Except Err _`;
* the engine state carries ghost fields (`pushLog`, `pops`,
  `relaxCount`) recording events of the run without influencing it;
* the `while` loop runs on fuel (`computeFuel`); the termination theorem
  shows this fuel always exhausts the frontier on well-formed graphs.
-/

namespace TransitiveTrust

/-- Errors of the model: `NodeNotFound` models the `unwrap` panic on a
graph lookup of an absent node (the specification's `NodeNotFound`
failure), `MissingScore` the `unwrap` panic on a score-map lookup. -/
inductive Err where
  | NodeNotFound (id : String)
  | MissingScore (id : String)
deriving DecidableEq

/-- Association-list lookup (model of `HashMap::get`). -/
def lookupW {α : Type} : List (String × α) → String → Option α
  | [], _ => none
  | (k, v) :: t, key => if k = key then some v else lookupW t key

/-- Association-list insert-or-overwrite (model of `HashMap::insert`). -/
def upsert {α : Type} (key : String) (v : α) : List (String × α) → List (String × α)
  | [] => [(key, v)]
  | (k, w) :: t => if k = key then (key, v) :: t else (k, w) :: upsert key v t

/-- A node of the trust graph: outgoing positive and negative edges. -/
structure Node where
  positive_edges : List (String × ℚ)
  negative_edges : List (String × ℚ)
deriving DecidableEq

def Node.new : Node := ⟨[], []⟩

def Node.add_positive_edge (nd : Node) (target : String) (weight : ℚ) : Node :=
  { nd with positive_edges := upsert target weight nd.positive_edges }

def Node.add_negative_edge (nd : Node) (target : String) (weight : ℚ) : Node :=
  { nd with negative_edges := upsert target weight nd.negative_edges }

def Node.get_positive_weight (nd : Node) (target : String) : ℚ :=
  (lookupW nd.positive_edges target).getD 0

def Node.get_negative_weight (nd : Node) (target : String) : ℚ :=
  (lookupW nd.negative_edges target).getD 0

/-- Union of positive and negative edge targets (model of
`Node::out_neighbours`, which unions the two key sets). -/
def Node.out_neighbours (nd : Node) : List String :=
  ((nd.positive_edges.map Prod.fst) ++ (nd.negative_edges.map Prod.fst)).dedup

/-- The trust graph: identifier-keyed collection of nodes. -/
structure Graph where
  nodes : List (String × Node)
deriving DecidableEq

def Graph.new : Graph := ⟨[]⟩

/-- Modify the node stored at `key` (model of `get_mut` + mutation). -/
def modifyNode (key : String) (f : Node → Node) : List (String × Node) → List (String × Node)
  | [] => []
  | (k, nd) :: t => if k = key then (k, f nd) :: t else (k, nd) :: modifyNode key f t

/-- Model of `Graph::add_positive_edge`: auto-create missing endpoints,
then record the weight on the source node. -/
def Graph.add_positive_edge (g : Graph) (s t : String) (w : ℚ) : Graph :=
  let n1 := if (lookupW g.nodes s).isSome then g.nodes else g.nodes ++ [(s, Node.new)]
  let n2 := if (lookupW n1 t).isSome then n1 else n1 ++ [(t, Node.new)]
  ⟨modifyNode s (fun nd => nd.add_positive_edge t w) n2⟩

/-- Model of `Graph::add_negative_edge`. -/
def Graph.add_negative_edge (g : Graph) (s t : String) (w : ℚ) : Graph :=
  let n1 := if (lookupW g.nodes s).isSome then g.nodes else g.nodes ++ [(s, Node.new)]
  let n2 := if (lookupW n1 t).isSome then n1 else n1 ++ [(t, Node.new)]
  ⟨modifyNode s (fun nd => nd.add_negative_edge t w) n2⟩

/-- Model of `Graph::get_positive_weight`; the `unwrap` on an absent
source node becomes `Err.NodeNotFound`. -/
def Graph.get_positive_weight (g : Graph) (s t : String) : Except Err ℚ :=
  match lookupW g.nodes s with
  | none => .error (.NodeNotFound s)
  | some nd => .ok (nd.get_positive_weight t)

/-- Model of `Graph::get_negative_weight`. -/
def Graph.get_negative_weight (g : Graph) (s t : String) : Except Err ℚ :=
  match lookupW g.nodes s with
  | none => .error (.NodeNotFound s)
  | some nd => .ok (nd.get_negative_weight t)

/-- Model of `Graph::for_each_node`: the identifiers of all nodes. -/
def Graph.for_each_node (g : Graph) : List String := g.nodes.map Prod.fst

/-- Model of `Graph::for_each_neighbour`; `unwrap` on an absent node
becomes `Err.NodeNotFound`. -/
def Graph.for_each_neighbour (g : Graph) (k : String) : Except Err (List String) :=
  match lookupW g.nodes k with
  | none => .error (.NodeNotFound k)
  | some nd => .ok nd.out_neighbours

/-- One output row of `compute_scores` (the Rust `Result` struct). -/
structure TResult where
  node : String
  p_score : ℚ
  n_score : ℚ
deriving DecidableEq

def TResult.net_score (r : TResult) : ℚ := r.p_score - r.n_score

/-- Model of Rust's saturating `as u32` cast of an `f32`: truncate
towards zero, clamp to `[0, 2^32 - 1]`. -/
def toU32 (q : ℚ) : ℕ :=
  if q < 0 then 0 else min (Int.toNat ⌊q⌋) (2 ^ 32 - 1)

/-- State of one run of the relaxation engine.  `p_scores`, `n_scores`,
`inspected` and `pq` mirror the Rust locals; `pushLog` (identifier,
pushed priority, net score at the moment of the push), `pops` and
`relaxCount` are ghost instrumentation; `err` records a panic. -/
structure EngineState where
  p_scores : List (String × ℚ)
  n_scores : List (String × ℚ)
  inspected : List String
  pq : List (String × ℕ)
  pushLog : List (String × ℕ × ℚ)
  pops : ℕ
  relaxCount : ℕ
  err : Option Err
deriving DecidableEq

def EngineState.empty : EngineState := ⟨[], [], [], [], [], 0, 0, none⟩

/-- Model of `PriorityQueue::push`: replace the priority when the item
is present, insert otherwise. -/
def pqPush (pq : List (String × ℕ)) (k : String) (prio : ℕ) : List (String × ℕ) :=
  upsert k prio pq

/-- Model of `PriorityQueue::pop`: remove and return a pair of maximal
priority (ties resolved towards the earliest entry). -/
def popMax : List (String × ℕ) → Option ((String × ℕ) × List (String × ℕ))
  | [] => none
  | e :: t =>
    match popMax t with
    | none => some (e, [])
    | some (m, rest) => if m.2 > e.2 then some (m, e :: rest) else some (e, t)

/-- The per-neighbour body of the relaxation loop (lines 146–178 of
`transitive_trust.rs`): guard, two channel updates, re-push. -/
def relaxNeighbor (g : Graph) (uKey : String) (node_score : ℚ)
    (st : EngineState) (nb : String) : EngineState :=
  if st.err.isSome then st else
  match lookupW st.p_scores nb, lookupW st.n_scores nb with
  | some pnb, some nnb =>
    if st.inspected.contains nb || pnb - nnb > node_score then st
    else
      match g.get_positive_weight uKey nb, g.get_negative_weight uKey nb with
      | .ok pw, .ok nw =>
        let st1 := if node_score > pnb then
            { st with p_scores := upsert nb (pnb + (node_score - pnb) * pw) st.p_scores }
          else st
        let st2 := if node_score > nnb then
            { st1 with n_scores := upsert nb (nnb + (node_score - nnb) * nw) st1.n_scores }
          else st1
        match lookupW st2.p_scores nb, lookupW st2.n_scores nb with
        | some p2, some n2 =>
          { st2 with
            pq := pqPush st2.pq nb (toU32 ((p2 - n2) * 10)),
            pushLog := st2.pushLog ++ [(nb, toU32 ((p2 - n2) * 10), p2 - n2)],
            relaxCount := st2.relaxCount + 1 }
        | _, _ => { st2 with err := some (.MissingScore nb) }
      | .error e, _ => { st with err := some e }
      | _, .error e => { st with err := some e }
  | _, _ => { st with err := some (.MissingScore nb) }

/-- One iteration of the `while !pq.is_empty()` loop: pop, discard if
already inspected, otherwise finalize the node and relax its
neighbours. -/
def stepLoop (g : Graph) (st : EngineState) : EngineState :=
  match popMax st.pq with
  | none => st
  | some ((u, _), rest) =>
    let st0 : EngineState := { st with pq := rest, pops := st.pops + 1 }
    if st0.inspected.contains u then st0
    else
      let st1 : EngineState := { st0 with inspected := u :: st0.inspected }
      match lookupW st1.p_scores u, lookupW st1.n_scores u with
      | some pu, some nu =>
        let node_score := max (pu - nu) 0
        match g.for_each_neighbour u with
        | .ok nbrs => nbrs.foldl (relaxNeighbor g u node_score) st1
        | .error e => { st1 with err := some e }
      | _, _ => { st1 with err := some (.MissingScore u) }

/-- Whether the Rust loop (or a panic) has ended the computation. -/
def EngineState.halted (st : EngineState) : Bool :=
  st.err.isSome || st.pq.isEmpty

/-- Fuel-indexed iteration of the loop body. -/
def loopIter (g : Graph) : ℕ → EngineState → EngineState
  | 0, st => st
  | fuel + 1, st => if st.halted then st else loopIter g fuel (stepLoop g st)

/-- The body of the initialization loop (lines 129–134): the node gets
`p_score` 1 or 0 according to the source, `n_score` 0, and one push. -/
def initNode (source : String) (st : EngineState) (node : String) : EngineState :=
  let p : ℚ := if node = source then 1 else 0
  { st with
    p_scores := upsert node p st.p_scores,
    n_scores := upsert node 0 st.n_scores,
    pq := pqPush st.pq node (toU32 (p * 10)),
    pushLog := st.pushLog ++ [(node, toU32 (p * 10), p)] }

/-- Initialization (lines 129–134), folded over all nodes. -/
def initState (g : Graph) (source : String) : EngineState :=
  g.for_each_node.foldl (initNode source) EngineState.empty

/-- Out-degree of a node as seen by the relaxation loop. -/
def outDeg (g : Graph) (k : String) : ℕ :=
  ((lookupW g.nodes k).map Node.out_neighbours).getD [] |>.length

/-- Fuel sufficient to exhaust the frontier on well-formed graphs
(proved below): one unit per initial frontier entry plus
`outDeg + 1` units per node. -/
def computeFuel (g : Graph) : ℕ :=
  g.for_each_node.length + (g.for_each_node.map (fun k => outDeg g k + 1)).sum

/-- The final engine state of one run. -/
def finalState (g : Graph) (source : String) : EngineState :=
  loopIter g (computeFuel g) (initState g source)

/-- One step of result extraction (lines 182–188). -/
def extractRow (source : String) (st : EngineState)
    (acc : Except Err (List TResult)) (node : String) : Except Err (List TResult) :=
  match acc with
  | .error e => .error e
  | .ok rs =>
    if node = source then .ok rs else
    match lookupW st.p_scores node, lookupW st.n_scores node with
    | some p, some n => .ok (rs ++ [⟨node, p, n⟩])
    | _, _ => .error (.MissingScore node)

/-- Result extraction (lines 181–189): one row per node other than the
source, read off the final score maps. -/
def extractResults (g : Graph) (source : String) (st : EngineState) :
    Except Err (List TResult) :=
  g.for_each_node.foldl (extractRow source st) (.ok [])

/-- Model of `compute_scores`. -/
def compute_scores (g : Graph) (source : String) : Except Err (List TResult) :=
  let fin := finalState g source
  match fin.err with
  | some e => .error e
  | none => extractResults g source fin

/-- The demonstration graph of `run_job` (Example A of the spec). -/
def exampleGraphA : Graph :=
  (((Graph.new.add_positive_edge "A" "B" 0.6).add_positive_edge
      "B" "C" 0.4).add_positive_edge "C" "D" 0.5).add_positive_edge "A" "C" 0.5

/-- Example C of the spec: a single negative edge of weight 1. -/
def exampleGraphC : Graph :=
  Graph.new.add_negative_edge "A" "B" 1

/-- Well-formedness maintained by the `Graph` API: node keys are
distinct and every edge target is itself a node. -/
def Graph.WF (g : Graph) : Prop :=
  g.for_each_node.Nodup ∧
    ∀ kn ∈ g.nodes, ∀ t ∈ kn.2.out_neighbours, t ∈ g.for_each_node

instance (g : Graph) : Decidable g.WF := by
  unfold Graph.WF; infer_instance

instance instDecEqExcept {ε α : Type} [DecidableEq ε] [DecidableEq α] :
    DecidableEq (Except ε α) := fun x y =>
  match x, y with
  | .ok a, .ok b => if h : a = b then .isTrue (by rw [h]) else .isFalse (by simp [h])
  | .error a, .error b => if h : a = b then .isTrue (by rw [h]) else .isFalse (by simp [h])
  | .ok _, .error _ => .isFalse (by simp)
  | .error _, .ok _ => .isFalse (by simp)

/-- One guarded iteration: apply the loop body unless the loop ended. -/
def haltStep (g : Graph) (st : EngineState) : EngineState :=
  if st.halted then st else stepLoop g st

/-- The other admissible resolution of `PriorityQueue::pop`'s
implementation-defined order among equal priorities: ties towards the
latest entry.  The crate's binary heap realizes either resolution
depending on the iteration order of the freshly seeded `HashSet` built
inside `out_neighbours` on every call, so two invocations of
`compute_scores` on the same unmodified graph can pop tied entries in
different orders. -/
def popMaxLast : List (String × ℕ) → Option ((String × ℕ) × List (String × ℕ))
  | [] => none
  | e :: t =>
    match popMaxLast t with
    | none => some (e, [])
    | some (m, rest) => if m.2 ≥ e.2 then some (m, e :: rest) else some (e, t)

/-- The loop body of `compute_scores` under the other admissible tie
order: identical to `stepLoop` except that tied maximal priorities pop
in the opposite order. -/
def stepLoopLast (g : Graph) (st : EngineState) : EngineState :=
  match popMaxLast st.pq with
  | none => st
  | some ((u, _), rest) =>
    let st0 : EngineState := { st with pq := rest, pops := st.pops + 1 }
    if st0.inspected.contains u then st0
    else
      let st1 : EngineState := { st0 with inspected := u :: st0.inspected }
      match lookupW st1.p_scores u, lookupW st1.n_scores u with
      | some pu, some nu =>
        let node_score := max (pu - nu) 0
        match g.for_each_neighbour u with
        | .ok nbrs => nbrs.foldl (relaxNeighbor g u node_score) st1
        | .error e => { st1 with err := some e }
      | _, _ => { st1 with err := some (.MissingScore u) }

def haltStepLast (g : Graph) (st : EngineState) : EngineState :=
  if st.halted then st else stepLoopLast g st

def loopIterLast (g : Graph) : ℕ → EngineState → EngineState
  | 0, st => st
  | fuel + 1, st => if st.halted then st else loopIterLast g fuel (stepLoopLast g st)

def finalStateLast (g : Graph) (source : String) : EngineState :=
  loopIterLast g (computeFuel g) (initState g source)

/-- `compute_scores` under the other admissible tie order. -/
def compute_scoresLast (g : Graph) (source : String) : Except Err (List TResult) :=
  let fin := finalStateLast g source
  match fin.err with
  | some e => .error e
  | none => extractResults g source fin

/-- At most one frontier entry attains the maximal priority: the state
in which `PriorityQueue::pop` has no implementation-defined freedom. -/
def UniqueMaxPQ (pq : List (String × ℕ)) : Prop :=
  ∀ e ∈ pq, ∀ e' ∈ pq, (∀ x ∈ pq, x.2 ≤ e.2) → (∀ x ∈ pq, x.2 ≤ e'.2) → e = e'

instance (pq : List (String × ℕ)) : Decidable (UniqueMaxPQ pq) := by
  unfold UniqueMaxPQ; infer_instance

/-- The tie graph: after the source S is relaxed, X (net 0.52) and Y
(net 0.50) both sit in the frontier at quantized priority 5. -/
def exampleGraphTie : Graph :=
  ((Graph.new.add_positive_edge "S" "X" 0.52).add_positive_edge
    "S" "Y" 0.5).add_positive_edge "X" "Y" 1

/-- The interpolation `old + (ns − old) × w` applied only when
`ns > old` — the update rule of both score channels. -/
def interp (ns old w : ℚ) : ℚ :=
  if ns > old then old + (ns - old) * w else old

/-- All edge weights of the graph are non-negative. -/
def NonnegWeights (g : Graph) : Prop :=
  ∀ kn ∈ g.nodes, (∀ e ∈ kn.2.positive_edges, 0 ≤ e.2) ∧
    (∀ e ∈ kn.2.negative_edges, 0 ≤ e.2)

/-- All edge weights of the graph lie in `[0, 1]`. -/
def WeightsIn01 (g : Graph) : Prop :=
  ∀ kn ∈ g.nodes, (∀ e ∈ kn.2.positive_edges, 0 ≤ e.2 ∧ e.2 ≤ 1) ∧
    (∀ e ∈ kn.2.negative_edges, 0 ≤ e.2 ∧ e.2 ≤ 1)

instance (g : Graph) : Decidable (NonnegWeights g) := by
  unfold NonnegWeights; infer_instance

instance (g : Graph) : Decidable (WeightsIn01 g) := by
  unfold WeightsIn01; infer_instance

/-- The loop variant: frontier size plus, for every uninspected node,
its out-degree plus one. -/
def measureM (g : Graph) (st : EngineState) : ℕ :=
  st.pq.length +
    ((g.for_each_node.filter (fun k => !st.inspected.contains k)).map
      (fun k => outDeg g k + 1)).sum

/-- The run invariant maintained by the relaxation loop on well-formed
graphs: no panic has occurred, frontier and visited set mention only
graph nodes, every node has both scores, the visited set has no
duplicates, and the ghost counters relate pops, pushes and
relaxations. -/
structure StateInv (g : Graph) (st : EngineState) : Prop where
  err_none : st.err = none
  pq_keys : ∀ e ∈ st.pq, e.1 ∈ g.for_each_node
  p_all : ∀ k ∈ g.for_each_node, (lookupW st.p_scores k).isSome
  n_all : ∀ k ∈ g.for_each_node, (lookupW st.n_scores k).isSome
  insp_keys : ∀ k ∈ st.inspected, k ∈ g.for_each_node
  insp_nodup : st.inspected.Nodup
  count_pp : st.pops + st.pq.length ≤ st.pushLog.length
  count_log : st.pushLog.length = g.for_each_node.length + st.relaxCount

/-- Pointwise non-decrease between two score maps: every recorded score
is still recorded, and not lower. -/
def scoresLE (m m' : List (String × ℚ)) : Prop :=
  ∀ k v, lookupW m k = some v → ∃ v', lookupW m' k = some v' ∧ v ≤ v'

/-- Every value recorded in the map lies in `[0, 1]`. -/
def boundedMap (m : List (String × ℚ)) : Prop :=
  ∀ e ∈ m, 0 ≤ e.2 ∧ e.2 ≤ 1

/-- A two-node graph used to probe `compute_scores` with an absent source. -/
def exampleGraphAbsent : Graph := Graph.new.add_positive_edge "A" "B" 0.5

/-- A graph with a negative positive-channel weight (the layer performs
no weight validation). -/
def exampleGraphNegW : Graph := Graph.new.add_positive_edge "A" "B" (-1)

end TransitiveTrust

namespace TransitiveTrust

/-- Claim C2, counterexample: on Example A (edges A→B pos 0.6, A→C pos
0.5, B→C pos 0.4, C→D pos 0.5, source A) the engine returns `p = 0.27`
for `D`, not the claimed `p = 0.25`: after B relaxes C to `p = 0.54`, D
receives `0.54 × 0.5`. -/
theorem c2_counterexample :
    compute_scores exampleGraphA "A" =
      .ok [⟨"B", 0.6, 0⟩, ⟨"C", 0.54, 0⟩, ⟨"D", 0.27, 0⟩] ∧
    (0.27 : ℚ) ≠ 0.25 := by
  constructor
  · with_unfolding_all decide
  · with_unfolding_all decide

/-- Claim C2, amended: on Example A with source A, `compute_scores`
produces exactly `Result{B, p=0.6, n=0}`, `Result{C, p=0.54, n=0}` (C's
score from A is then interpolated towards B's 0.6 with weight 0.4) and
`Result{D, p=0.27, n=0}` (0.5 of C's final 0.54). -/
theorem c2_exampleA_results :
    compute_scores exampleGraphA "A" =
      .ok [⟨"B", 0.6, 0⟩, ⟨"C", 0.54, 0⟩, ⟨"D", 0.27, 0⟩] := by
  with_unfolding_all decide

/-- Claim C6: on the single negative edge A→B with weight 1 and source
A, the engine produces exactly one result, `Result{B, p=0, n=1}`. -/
theorem c6_exampleC_result :
    compute_scores exampleGraphC "A" = .ok [⟨"B", 0, 1⟩] := by
  with_unfolding_all decide

/-- Claim C1, counterexample: with source `Z` absent from the graph,
`compute_scores` does not fail with `NodeNotFound` — it runs to
completion and returns a row for every node, all scores zero. -/
theorem c1_counterexample :
    "Z" ∉ exampleGraphAbsent.for_each_node ∧
    compute_scores exampleGraphAbsent "Z" = .ok [⟨"A", 0, 0⟩, ⟨"B", 0, 0⟩] ∧
    compute_scores exampleGraphAbsent "Z" ≠ .error (.NodeNotFound "Z") := by
  refine ⟨by decide, by with_unfolding_all decide, by with_unfolding_all decide⟩

/-- Claim C4, counterexample: weights are not validated, and with the
positive edge A→B of weight −1 the first relaxation lowers `p_score[B]`
from its initialized 0 to −1. -/
theorem c4_counterexample :
    lookupW (initState exampleGraphNegW "A").p_scores "B" = some 0 ∧
    lookupW (stepLoop exampleGraphNegW (initState exampleGraphNegW "A")).p_scores "B"
      = some (-1) ∧
    (-1 : ℚ) < 0 := by
  refine ⟨by with_unfolding_all decide, by with_unfolding_all decide, by decide⟩

/-- Claim C5, counterexample: on Example C the relaxation of B pushes it
with net score −1; the pushed priority is the saturating cast 0, not
`⌊(−1) × 10⌋ = −10`. -/
theorem c5_counterexample :
    (stepLoop exampleGraphC (initState exampleGraphC "A")).pushLog =
      [("A", 10, 1), ("B", 0, 0), ("B", 0, -1)] ∧
    (0 : ℤ) ≠ ⌊((-1 : ℚ)) * 10⌋ := by
  refine ⟨by with_unfolding_all decide, by with_unfolding_all decide⟩

/-! ### Association-list lemmas -/

theorem lookupW_upsert_self {α : Type} (k : String) (v : α) (m : List (String × α)) :
    lookupW (upsert k v m) k = some v := by
  induction m with
  | nil => simp [upsert, lookupW]
  | cons e t ih =>
    obtain ⟨k', w⟩ := e
    by_cases h : k' = k
    · simp [upsert, lookupW, h]
    · simp [upsert, lookupW, h, ih]

theorem lookupW_upsert_ne {α : Type} (k k' : String) (v : α) (m : List (String × α))
    (h : k' ≠ k) : lookupW (upsert k v m) k' = lookupW m k' := by
  have hk : ¬(k = k') := fun h' => h h'.symm
  induction m with
  | nil => simp [upsert, lookupW, hk]
  | cons e t ih =>
    obtain ⟨k0, w⟩ := e
    by_cases h0 : k0 = k
    · subst h0
      simp [upsert, lookupW, hk]
    · simp only [upsert, if_neg h0, lookupW, ih]

theorem lookupW_upsert_isSome {α : Type} (k k' : String) (v : α) (m : List (String × α))
    (h : (lookupW m k').isSome) : (lookupW (upsert k v m) k').isSome := by
  by_cases hk : k' = k
  · subst hk; simp [lookupW_upsert_self]
  · rwa [lookupW_upsert_ne _ _ _ _ hk]

theorem mem_upsert {α : Type} (k : String) (v : α) (m : List (String × α)) :
    ∀ kv ∈ upsert k v m, kv = (k, v) ∨ kv ∈ m := by
  induction m with
  | nil => simp [upsert]
  | cons e t ih =>
    obtain ⟨k0, w⟩ := e
    by_cases h0 : k0 = k
    · intro kv hkv
      simp only [upsert, if_pos h0, List.mem_cons] at hkv
      rcases hkv with h | h
      · exact Or.inl h
      · exact Or.inr (List.mem_cons_of_mem _ h)
    · intro kv hkv
      simp only [upsert, if_neg h0, List.mem_cons] at hkv
      rcases hkv with h | h
      · exact Or.inr (h ▸ List.mem_cons_self _ _)
      · rcases ih kv h with h' | h'
        · exact Or.inl h'
        · exact Or.inr (List.mem_cons_of_mem _ h')

theorem length_upsert {α : Type} (k : String) (v : α) (m : List (String × α)) :
    (upsert k v m).length ≤ m.length + 1 := by
  induction m with
  | nil => simp [upsert]
  | cons e t ih =>
    obtain ⟨k0, w⟩ := e
    by_cases h0 : k0 = k
    · simp [upsert, h0]
    · simpa [upsert, h0] using ih

theorem lookupW_mem {α : Type} (m : List (String × α)) (k : String) (v : α)
    (h : lookupW m k = some v) : (k, v) ∈ m := by
  induction m with
  | nil => simp [lookupW] at h
  | cons e t ih =>
    obtain ⟨k0, w⟩ := e
    by_cases h0 : k0 = k
    · subst h0
      simp only [lookupW, if_pos rfl] at h
      injection h with h
      subst h
      exact List.mem_cons_self _ _
    · simp only [lookupW, if_neg h0] at h
      exact List.mem_cons_of_mem _ (ih h)

theorem lookupW_append {α : Type} (m m' : List (String × α)) (k : String) :
    lookupW (m ++ m') k = ((lookupW m k).rec (lookupW m' k) (fun v => some v)) := by
  induction m with
  | nil => simp [lookupW]
  | cons e t ih =>
    obtain ⟨k0, w⟩ := e
    by_cases h0 : k0 = k
    · simp [lookupW, h0]
    · simp [lookupW, h0, ih]

/-! ### Claim C7: weight getters -/

theorem modifyNode_lookup_self (k : String) (f : Node → Node) (m : List (String × Node)) :
    lookupW (modifyNode k f m) k = (lookupW m k).map f := by
  induction m with
  | nil => simp [modifyNode, lookupW]
  | cons e t ih =>
    obtain ⟨k0, nd⟩ := e
    by_cases h0 : k0 = k
    · simp [modifyNode, lookupW, h0]
    · simp [modifyNode, lookupW, h0, ih]

theorem ensure_isSome_self (m : List (String × Node)) (k : String) :
    (lookupW (if (lookupW m k).isSome then m else m ++ [(k, Node.new)]) k).isSome := by
  by_cases h : (lookupW m k).isSome
  · simp [h]
  · rw [if_neg h, lookupW_append]
    rcases hm : lookupW m k with _ | nd
    · simp [lookupW]
    · simp [hm] at h

theorem ensure_isSome_mono (m : List (String × Node)) (k' k : String)
    (h : (lookupW m k).isSome) :
    (lookupW (if (lookupW m k').isSome then m else m ++ [(k', Node.new)]) k).isSome := by
  by_cases h' : (lookupW m k').isSome
  · simp [h', h]
  · rw [if_neg h', lookupW_append]
    obtain ⟨nd, hnd⟩ := Option.isSome_iff_exists.mp h
    simp [hnd]

theorem add_positive_edge_lookup_self (g : Graph) (s t : String) (w : ℚ) :
    ∃ nd0 : Node, lookupW (g.add_positive_edge s t w).nodes s
      = some (nd0.add_positive_edge t w) := by
  have hsome := ensure_isSome_mono
      (if (lookupW g.nodes s).isSome then g.nodes else g.nodes ++ [(s, Node.new)]) t s
      (ensure_isSome_self g.nodes s)
  obtain ⟨nd0, hnd0⟩ := Option.isSome_iff_exists.mp hsome
  refine ⟨nd0, ?_⟩
  show lookupW (modifyNode s (fun nd => nd.add_positive_edge t w) _) s = _
  rw [modifyNode_lookup_self, hnd0]
  rfl

theorem add_negative_edge_lookup_self (g : Graph) (s t : String) (w : ℚ) :
    ∃ nd0 : Node, lookupW (g.add_negative_edge s t w).nodes s
      = some (nd0.add_negative_edge t w) := by
  have hsome := ensure_isSome_mono
      (if (lookupW g.nodes s).isSome then g.nodes else g.nodes ++ [(s, Node.new)]) t s
      (ensure_isSome_self g.nodes s)
  obtain ⟨nd0, hnd0⟩ := Option.isSome_iff_exists.mp hsome
  refine ⟨nd0, ?_⟩
  show lookupW (modifyNode s (fun nd => nd.add_negative_edge t w) _) s = _
  rw [modifyNode_lookup_self, hnd0]
  rfl

/-- Claim C7: `get_positive_weight` / `get_negative_weight` return the
last recorded weight for the pair, return 0 when the source node exists
but has no entry for the target, and fail with `NodeNotFound` when the
source was never inserted. -/
theorem c7_get_weight_spec :
    (∀ (g : Graph) (s t : String) (w : ℚ),
        (g.add_positive_edge s t w).get_positive_weight s t = .ok w ∧
        (g.add_negative_edge s t w).get_negative_weight s t = .ok w) ∧
    (∀ (g : Graph) (s t : String) (nd : Node),
        lookupW g.nodes s = some nd → lookupW nd.positive_edges t = none →
        g.get_positive_weight s t = .ok 0) ∧
    (∀ (g : Graph) (s t : String) (nd : Node),
        lookupW g.nodes s = some nd → lookupW nd.negative_edges t = none →
        g.get_negative_weight s t = .ok 0) ∧
    (∀ (g : Graph) (s t : String),
        lookupW g.nodes s = none →
        g.get_positive_weight s t = .error (.NodeNotFound s) ∧
        g.get_negative_weight s t = .error (.NodeNotFound s)) := by
  refine ⟨?_, ?_, ?_, ?_⟩
  · intro g s t w
    constructor
    · obtain ⟨nd0, hnd0⟩ := add_positive_edge_lookup_self g s t w
      simp [Graph.get_positive_weight, hnd0, Node.add_positive_edge,
        Node.get_positive_weight, lookupW_upsert_self]
    · obtain ⟨nd0, hnd0⟩ := add_negative_edge_lookup_self g s t w
      simp [Graph.get_negative_weight, hnd0, Node.add_negative_edge,
        Node.get_negative_weight, lookupW_upsert_self]
  · intro g s t nd hnd hmiss
    simp [Graph.get_positive_weight, hnd, Node.get_positive_weight, hmiss]
  · intro g s t nd hnd hmiss
    simp [Graph.get_negative_weight, hnd, Node.get_negative_weight, hmiss]
  · intro g s t hs
    exact ⟨by simp [Graph.get_positive_weight, hs], by simp [Graph.get_negative_weight, hs]⟩

/-- Claim C3: within one iteration of the relaxation loop, a
not-yet-visited neighbour `nb` of the popped node `u` is skipped — its
scores and the push log left untouched — exactly when its current
unclamped net score `p_score[nb] − n_score[nb]` strictly exceeds the
popped node's clamped score `node_score = max (p_score[u] − n_score[u]) 0`. -/
theorem c3_relax_guard_iff (g : Graph) (u nb : String) (st : EngineState)
    (pu nu pnb nnb : ℚ)
    (herr : st.err = none)
    (hins : nb ∉ st.inspected)
    (hu : (lookupW g.nodes u).isSome)
    (hpu : lookupW st.p_scores u = some pu)
    (hnu : lookupW st.n_scores u = some nu)
    (hp : lookupW st.p_scores nb = some pnb)
    (hn : lookupW st.n_scores nb = some nnb) :
    ((relaxNeighbor g u (max (pu - nu) 0) st nb).p_scores = st.p_scores ∧
     (relaxNeighbor g u (max (pu - nu) 0) st nb).n_scores = st.n_scores ∧
     (relaxNeighbor g u (max (pu - nu) 0) st nb).pushLog = st.pushLog) ↔
    pnb - nnb > max (pu - nu) 0 := by
  have hc : st.inspected.contains nb = false := by
    rw [← Bool.not_eq_true, List.elem_iff]
    exact hins
  obtain ⟨nd, hnd⟩ := Option.isSome_iff_exists.mp hu
  by_cases hguard : pnb - nnb > max (pu - nu) 0
  · simp [relaxNeighbor, herr, hp, hn, hc, hguard]
  · rw [relaxNeighbor]
    simp only [herr, Option.isSome_none, Bool.false_eq_true, if_false, hp, hn, hc,
      Bool.false_or]
    rw [if_neg (by simpa using hguard)]
    simp only [Graph.get_positive_weight, Graph.get_negative_weight, hnd]
    constructor
    · intro hsame
      exfalso
      by_cases h1 : max (pu - nu) 0 > pnb <;> by_cases h2 : max (pu - nu) 0 > nnb <;>
        [skip; skip; skip; skip] <;>
        simp only [h1, h2, if_true, if_false, lookupW_upsert_self,
          lookupW_upsert_isSome, hp, hn] at hsame <;>
      · obtain ⟨-, -, hlog⟩ := hsame
        have := congrArg List.length hlog
        simp at this
    · intro h
      exact absurd h hguard
/-- Witness for C3: relaxing the unvisited neighbour B of popped node A
in the initial state of Example A; B's net score 0 does not exceed A's
clamped score 1, and indeed B is not skipped. -/
theorem c3_witness :
    ((relaxNeighbor exampleGraphA "A" (max ((1 : ℚ) - 0) 0)
        (initState exampleGraphA "A") "B").p_scores
          = (initState exampleGraphA "A").p_scores ∧
     (relaxNeighbor exampleGraphA "A" (max ((1 : ℚ) - 0) 0)
        (initState exampleGraphA "A") "B").n_scores
          = (initState exampleGraphA "A").n_scores ∧
     (relaxNeighbor exampleGraphA "A" (max ((1 : ℚ) - 0) 0)
        (initState exampleGraphA "A") "B").pushLog
          = (initState exampleGraphA "A").pushLog) ↔
    (0 : ℚ) - 0 > max ((1 : ℚ) - 0) 0 :=
  c3_relax_guard_iff exampleGraphA "A" "B" (initState exampleGraphA "A") 1 0 0 0
    (by with_unfolding_all decide) (by with_unfolding_all decide)
    (by with_unfolding_all decide) (by with_unfolding_all decide)
    (by with_unfolding_all decide) (by with_unfolding_all decide)
    (by with_unfolding_all decide)

/-! ### Trajectory helpers -/

theorem loopIter_halted (g : Graph) (fuel : ℕ) (st : EngineState)
    (h : st.halted = true) : loopIter g fuel st = st := by
  cases fuel with
  | zero => rfl
  | succ f => simp [loopIter, h]

theorem loopIter_succ_outer (g : Graph) (k : ℕ) (st : EngineState) :
    loopIter g (k + 1) st = haltStep g (loopIter g k st) := by
  induction k generalizing st with
  | zero =>
    by_cases h : st.halted
    · simp [loopIter, haltStep, h]
    · simp [loopIter, haltStep, h]
  | succ k ih =>
    by_cases h : st.halted
    · rw [loopIter_halted g _ st h, loopIter_halted g _ st h, haltStep, if_pos h]
    · have h1 : loopIter g (k + 1 + 1) st = loopIter g (k + 1) (stepLoop g st) := by
        simp [loopIter, h]
      have h2 : loopIter g (k + 1) st = loopIter g k (stepLoop g st) := by
        simp [loopIter, h]
      rw [h1, ih, h2]

theorem relaxNeighbor_inspected (g : Graph) (u : String) (ns : ℚ)
    (st : EngineState) (nb : String) :
    (relaxNeighbor g u ns st nb).inspected = st.inspected := by
  simp only [relaxNeighbor]
  repeat' split
  all_goals rfl

theorem relaxNeighbor_pops (g : Graph) (u : String) (ns : ℚ)
    (st : EngineState) (nb : String) :
    (relaxNeighbor g u ns st nb).pops = st.pops := by
  simp only [relaxNeighbor]
  repeat' split
  all_goals rfl

theorem foldl_relax_inspected (g : Graph) (u : String) (ns : ℚ)
    (l : List String) (st : EngineState) :
    (l.foldl (relaxNeighbor g u ns) st).inspected = st.inspected := by
  induction l generalizing st with
  | nil => rfl
  | cons nb t ih => rw [List.foldl_cons, ih, relaxNeighbor_inspected]

theorem foldl_relax_pops (g : Graph) (u : String) (ns : ℚ)
    (l : List String) (st : EngineState) :
    (l.foldl (relaxNeighbor g u ns) st).pops = st.pops := by
  induction l generalizing st with
  | nil => rfl
  | cons nb t ih => rw [List.foldl_cons, ih, relaxNeighbor_pops]

/-- Characterization of the per-neighbour body in a panic-free state
where both neighbour scores and the popped node exist: either the guard
fires and the state is untouched, or both channels are conditionally
interpolated and one push is recorded. -/
theorem relaxNeighbor_spec (g : Graph) (u nb : String) (ns pnb nnb : ℚ) (nd : Node)
    (st : EngineState)
    (herr : st.err = none)
    (hp : lookupW st.p_scores nb = some pnb)
    (hn : lookupW st.n_scores nb = some nnb)
    (hnd : lookupW g.nodes u = some nd) :
    relaxNeighbor g u ns st nb =
      if st.inspected.contains nb ∨ pnb - nnb > ns then st
      else
        { st with
          p_scores := if ns > pnb then
              upsert nb (interp ns pnb (nd.get_positive_weight nb)) st.p_scores
            else st.p_scores,
          n_scores := if ns > nnb then
              upsert nb (interp ns nnb (nd.get_negative_weight nb)) st.n_scores
            else st.n_scores,
          pq := pqPush st.pq nb (toU32 ((interp ns pnb (nd.get_positive_weight nb) -
            interp ns nnb (nd.get_negative_weight nb)) * 10)),
          pushLog := st.pushLog ++ [(nb,
            toU32 ((interp ns pnb (nd.get_positive_weight nb) -
              interp ns nnb (nd.get_negative_weight nb)) * 10),
            interp ns pnb (nd.get_positive_weight nb) -
              interp ns nnb (nd.get_negative_weight nb))],
          relaxCount := st.relaxCount + 1 } := by
  have hpw : g.get_positive_weight u nb = .ok (nd.get_positive_weight nb) := by
    simp [Graph.get_positive_weight, hnd]
  have hnw : g.get_negative_weight u nb = .ok (nd.get_negative_weight nb) := by
    simp [Graph.get_negative_weight, hnd]
  by_cases hcond : st.inspected.contains nb ∨ pnb - nnb > ns
  · have hb : (st.inspected.contains nb || decide (pnb - nnb > ns)) = true := by
      rcases hcond with h | h
      · rw [h, Bool.true_or]
      · rw [decide_eq_true h, Bool.or_true]
    rw [if_pos hcond]
    simp only [relaxNeighbor, herr, Option.isSome_none, Bool.false_eq_true, if_false,
      hp, hn, hb, if_true]
  · have hb : (st.inspected.contains nb || decide (pnb - nnb > ns)) = false := by
      push_neg at hcond
      obtain ⟨h1, h2⟩ := hcond
      rw [Bool.eq_false_iff.mpr h1, decide_eq_false (not_lt.mpr h2), Bool.or_false]
    rw [if_neg hcond]
    simp only [relaxNeighbor, herr, Option.isSome_none, Bool.false_eq_true, if_false,
      hp, hn, hb, hpw, hnw]
    by_cases h1 : ns > pnb <;> by_cases h2 : ns > nnb <;>
      simp only [h1, h2, if_true, if_false, lookupW_upsert_self, hp, hn, interp,
        pqPush, herr]

theorem popMax_eq_none_iff (pq : List (String × ℕ)) : popMax pq = none ↔ pq = [] := by
  cases pq with
  | nil => simp [popMax]
  | cons a t =>
    simp only [popMax]
    rcases ht : popMax t with - | ⟨m, r⟩ <;> simp [ht]
    split <;> simp

theorem popMax_mem (pq : List (String × ℕ)) (e : String × ℕ) (rest : List (String × ℕ))
    (h : popMax pq = some (e, rest)) : e ∈ pq := by
  induction pq generalizing e rest with
  | nil => simp [popMax] at h
  | cons a t ih =>
    simp only [popMax] at h
    split at h
    · injection h with h
      rw [(Prod.mk.injEq _ _ _ _).mp h |>.1.symm]
      exact List.mem_cons_self _ _
    · rename_i m r heq
      split at h
      · injection h with h
        rw [(Prod.mk.injEq _ _ _ _).mp h |>.1.symm]
        exact List.mem_cons_of_mem _ (ih m r heq)
      · injection h with h
        rw [(Prod.mk.injEq _ _ _ _).mp h |>.1.symm]
        exact List.mem_cons_self _ _

theorem popMax_rest_length (pq : List (String × ℕ)) (e : String × ℕ)
    (rest : List (String × ℕ)) (h : popMax pq = some (e, rest)) :
    rest.length + 1 = pq.length := by
  induction pq generalizing e rest with
  | nil => simp [popMax] at h
  | cons a t ih =>
    simp only [popMax] at h
    split at h
    · rename_i heq
      injection h with h
      obtain ⟨-, h2⟩ := (Prod.mk.injEq _ _ _ _).mp h
      rw [← h2]
      have := (popMax_eq_none_iff t).mp heq
      simp [this]
    · rename_i m r heq
      split at h
      · injection h with h
        obtain ⟨-, h2⟩ := (Prod.mk.injEq _ _ _ _).mp h
        rw [← h2]
        simpa using ih m r heq
      · injection h with h
        obtain ⟨-, h2⟩ := (Prod.mk.injEq _ _ _ _).mp h
        rw [← h2]
        rfl

theorem popMax_rest_subset (pq : List (String × ℕ)) (e : String × ℕ)
    (rest : List (String × ℕ)) (h : popMax pq = some (e, rest)) :
    ∀ x ∈ rest, x ∈ pq := by
  induction pq generalizing e rest with
  | nil => simp [popMax] at h
  | cons a t ih =>
    simp only [popMax] at h
    split at h
    · injection h with h
      obtain ⟨-, h2⟩ := (Prod.mk.injEq _ _ _ _).mp h
      rw [← h2]
      intro x hx
      simp at hx
    · rename_i m r heq
      split at h
      · injection h with h
        obtain ⟨-, h2⟩ := (Prod.mk.injEq _ _ _ _).mp h
        rw [← h2]
        intro x hx
        rcases List.mem_cons.mp hx with hx | hx
        · exact hx ▸ List.mem_cons_self _ _
        · exact List.mem_cons_of_mem _ (ih m r heq x hx)
      · injection h with h
        obtain ⟨-, h2⟩ := (Prod.mk.injEq _ _ _ _).mp h
        rw [← h2]
        intro x hx
        exact List.mem_cons_of_mem _ hx

/-! ### Initialization invariant -/

theorem initFold_err (source : String) (l : List String) (st : EngineState) :
    (l.foldl (initNode source) st).err = st.err := by
  induction l generalizing st with
  | nil => rfl
  | cons a t ih => rw [List.foldl_cons, ih]; rfl

theorem initFold_pops (source : String) (l : List String) (st : EngineState) :
    (l.foldl (initNode source) st).pops = st.pops := by
  induction l generalizing st with
  | nil => rfl
  | cons a t ih => rw [List.foldl_cons, ih]; rfl

theorem initFold_relax (source : String) (l : List String) (st : EngineState) :
    (l.foldl (initNode source) st).relaxCount = st.relaxCount := by
  induction l generalizing st with
  | nil => rfl
  | cons a t ih => rw [List.foldl_cons, ih]; rfl

theorem initFold_inspected (source : String) (l : List String) (st : EngineState) :
    (l.foldl (initNode source) st).inspected = st.inspected := by
  induction l generalizing st with
  | nil => rfl
  | cons a t ih => rw [List.foldl_cons, ih]; rfl

theorem initFold_log_len (source : String) (l : List String) (st : EngineState) :
    (l.foldl (initNode source) st).pushLog.length = st.pushLog.length + l.length := by
  induction l generalizing st with
  | nil => rfl
  | cons a t ih =>
    rw [List.foldl_cons, ih]
    simp [initNode]
    omega

theorem initFold_pq_len (source : String) (l : List String) (st : EngineState) :
    (l.foldl (initNode source) st).pq.length ≤ st.pq.length + l.length := by
  induction l generalizing st with
  | nil => simp
  | cons a t ih =>
    rw [List.foldl_cons]
    refine le_trans (ih _) ?_
    have : (initNode source st a).pq.length ≤ st.pq.length + 1 := by
      simpa [initNode, pqPush] using length_upsert a _ st.pq
    simp only [List.length_cons]
    omega

theorem initFold_p_isSome (source : String) (l : List String) (st : EngineState)
    (k : String) (h : k ∈ l ∨ (lookupW st.p_scores k).isSome) :
    (lookupW (l.foldl (initNode source) st).p_scores k).isSome := by
  induction l generalizing st with
  | nil => simpa using h.resolve_left (by simp)
  | cons a t ih =>
    rw [List.foldl_cons]
    refine ih _ ?_
    rcases h with h | h
    · rcases List.mem_cons.mp h with h | h
      · right
        subst h
        simp [initNode, lookupW_upsert_self]
      · exact Or.inl h
    · right
      exact lookupW_upsert_isSome _ _ _ _ h

theorem initFold_n_isSome (source : String) (l : List String) (st : EngineState)
    (k : String) (h : k ∈ l ∨ (lookupW st.n_scores k).isSome) :
    (lookupW (l.foldl (initNode source) st).n_scores k).isSome := by
  induction l generalizing st with
  | nil => simpa using h.resolve_left (by simp)
  | cons a t ih =>
    rw [List.foldl_cons]
    refine ih _ ?_
    rcases h with h | h
    · rcases List.mem_cons.mp h with h | h
      · right
        subst h
        simp [initNode, lookupW_upsert_self]
      · exact Or.inl h
    · right
      exact lookupW_upsert_isSome _ _ _ _ h

theorem initFold_pq_sub (source : String) (l : List String) (st : EngineState)
    (e : String × ℕ) (he : e ∈ (l.foldl (initNode source) st).pq) :
    e ∈ st.pq ∨ e.1 ∈ l := by
  induction l generalizing st with
  | nil => exact Or.inl he
  | cons a t ih =>
    rw [List.foldl_cons] at he
    rcases ih _ he with h | h
    · rcases mem_upsert _ _ _ _ h with h | h
      · right
        rw [h]
        exact List.mem_cons_self _ _
      · exact Or.inl h
    · right
      exact List.mem_cons_of_mem _ h

theorem initFold_log_form (source : String) (l : List String) (st : EngineState)
    (hst : ∀ e ∈ st.pushLog, e.2.1 = toU32 (e.2.2 * 10))
    (e : String × ℕ × ℚ) (he : e ∈ (l.foldl (initNode source) st).pushLog) :
    e.2.1 = toU32 (e.2.2 * 10) := by
  induction l generalizing st with
  | nil => exact hst e he
  | cons a t ih =>
    rw [List.foldl_cons] at he
    refine ih _ ?_ he
    intro x hx
    rcases List.mem_append.mp hx with hx | hx
    · exact hst x hx
    · simp only [List.mem_singleton] at hx
      subst hx
      rfl

/-- Frame and goodness facts of one per-neighbour step, used to push
the master invariant through the relaxation fold. -/
theorem relaxNeighbor_inv_step (g : Graph) (u nb : String) (ns : ℚ) (st : EngineState)
    (hu : (lookupW g.nodes u).isSome)
    (hnb : nb ∈ g.for_each_node)
    (herr : st.err = none)
    (hp : ∀ k ∈ g.for_each_node, (lookupW st.p_scores k).isSome)
    (hn : ∀ k ∈ g.for_each_node, (lookupW st.n_scores k).isSome) :
    (relaxNeighbor g u ns st nb).err = none ∧
    (∀ k ∈ g.for_each_node, (lookupW (relaxNeighbor g u ns st nb).p_scores k).isSome) ∧
    (∀ k ∈ g.for_each_node, (lookupW (relaxNeighbor g u ns st nb).n_scores k).isSome) ∧
    (∀ e ∈ (relaxNeighbor g u ns st nb).pq, e ∈ st.pq ∨ e.1 = nb) ∧
    (relaxNeighbor g u ns st nb).pq.length + st.pushLog.length ≤
      st.pq.length + (relaxNeighbor g u ns st nb).pushLog.length ∧
    (relaxNeighbor g u ns st nb).pushLog.length + st.relaxCount =
      st.pushLog.length + (relaxNeighbor g u ns st nb).relaxCount ∧
    (∀ e ∈ (relaxNeighbor g u ns st nb).pushLog,
      e ∈ st.pushLog ∨ e.2.1 = toU32 (e.2.2 * 10)) ∧
    (relaxNeighbor g u ns st nb).pushLog.length ≤ st.pushLog.length + 1 := by
  obtain ⟨pnb, hp'⟩ := Option.isSome_iff_exists.mp (hp nb hnb)
  obtain ⟨nnb, hn'⟩ := Option.isSome_iff_exists.mp (hn nb hnb)
  obtain ⟨nd, hnd⟩ := Option.isSome_iff_exists.mp hu
  rw [relaxNeighbor_spec g u nb ns pnb nnb nd st herr hp' hn' hnd]
  split
  · exact ⟨herr, hp, hn, fun e he => Or.inl he, by omega, by omega,
      fun e he => Or.inl he, by omega⟩
  · refine ⟨herr, ?_, ?_, ?_, ?_, ?_, ?_, ?_⟩
    · intro k hk
      dsimp only
      split
      · exact lookupW_upsert_isSome _ _ _ _ (hp k hk)
      · exact hp k hk
    · intro k hk
      dsimp only
      split
      · exact lookupW_upsert_isSome _ _ _ _ (hn k hk)
      · exact hn k hk
    · intro e he
      dsimp only at he
      rcases mem_upsert _ _ _ _ he with h | h
      · right
        rw [h]
      · exact Or.inl h
    · have := length_upsert nb (toU32 ((interp ns pnb (nd.get_positive_weight nb) -
        interp ns nnb (nd.get_negative_weight nb)) * 10)) st.pq
      dsimp only
      simp only [pqPush, List.length_append, List.length_singleton]
      omega
    · dsimp only
      simp only [List.length_append, List.length_singleton]
      omega
    · intro e he
      dsimp only at he
      rcases List.mem_append.mp he with h | h
      · exact Or.inl h
      · right
        simp only [List.mem_singleton] at h
        subst h
        rfl
    · dsimp only
      simp only [List.length_append, List.length_singleton]
      omega

/-- The conclusions of `relaxNeighbor_inv_step`, folded over a list of
neighbours. -/
theorem foldl_relax_inv (g : Graph) (u : String) (ns : ℚ) (l : List String)
    (st : EngineState)
    (hu : (lookupW g.nodes u).isSome)
    (hl : ∀ x ∈ l, x ∈ g.for_each_node)
    (herr : st.err = none)
    (hp : ∀ k ∈ g.for_each_node, (lookupW st.p_scores k).isSome)
    (hn : ∀ k ∈ g.for_each_node, (lookupW st.n_scores k).isSome) :
    (l.foldl (relaxNeighbor g u ns) st).err = none ∧
    (∀ k ∈ g.for_each_node,
      (lookupW (l.foldl (relaxNeighbor g u ns) st).p_scores k).isSome) ∧
    (∀ k ∈ g.for_each_node,
      (lookupW (l.foldl (relaxNeighbor g u ns) st).n_scores k).isSome) ∧
    (∀ e ∈ (l.foldl (relaxNeighbor g u ns) st).pq, e ∈ st.pq ∨ e.1 ∈ l) ∧
    (l.foldl (relaxNeighbor g u ns) st).pq.length + st.pushLog.length ≤
      st.pq.length + (l.foldl (relaxNeighbor g u ns) st).pushLog.length ∧
    (l.foldl (relaxNeighbor g u ns) st).pushLog.length + st.relaxCount =
      st.pushLog.length + (l.foldl (relaxNeighbor g u ns) st).relaxCount ∧
    (∀ e ∈ (l.foldl (relaxNeighbor g u ns) st).pushLog,
      e ∈ st.pushLog ∨ e.2.1 = toU32 (e.2.2 * 10)) ∧
    (l.foldl (relaxNeighbor g u ns) st).pushLog.length ≤
      st.pushLog.length + l.length := by
  induction l generalizing st with
  | nil =>
    simp only [List.foldl_nil]
    exact ⟨herr, hp, hn, fun e he => Or.inl he, le_refl _, trivial,
      fun e he => Or.inl he, by omega⟩
  | cons a t ih =>
    obtain ⟨herr1, hp1, hn1, hpq1, hlen1, hlog1, hform1, hgrow1⟩ :=
      relaxNeighbor_inv_step g u a ns st hu (hl a (List.mem_cons_self _ _)) herr hp hn
    obtain ⟨herr2, hp2, hn2, hpq2, hlen2, hlog2, hform2, hgrow2⟩ :=
      ih (relaxNeighbor g u ns st a) (fun x hx => hl x (List.mem_cons_of_mem _ hx))
        herr1 hp1 hn1
    rw [List.foldl_cons]
    refine ⟨herr2, hp2, hn2, ?_, by omega, by omega, ?_, ?_⟩
    · intro e he
      rcases hpq2 e he with h | h
      · rcases hpq1 e h with h' | h'
        · exact Or.inl h'
        · right
          rw [h']
          exact List.mem_cons_self _ _
      · right
        exact List.mem_cons_of_mem _ h
    · intro e he
      rcases hform2 e he with h | h
      · exact hform1 e h
      · exact Or.inr h
    · simp only [List.length_cons]
      omega

theorem lookupW_isSome_of_mem_keys {α : Type} (m : List (String × α)) (k : String)
    (h : k ∈ m.map Prod.fst) : (lookupW m k).isSome := by
  induction m with
  | nil => simp at h
  | cons e t ih =>
    obtain ⟨k0, v⟩ := e
    by_cases h0 : k0 = k
    · simp [lookupW, h0]
    · simp only [List.map_cons, List.mem_cons] at h
      rcases h with h | h
      · exact absurd h.symm h0
      · simp only [lookupW, if_neg h0]
        exact ih h

/-- The loop body preserves the master invariant on well-formed graphs. -/
theorem stepLoop_inv (g : Graph) (hWF : g.WF) (st : EngineState)
    (h : StateInv g st) : StateInv g (stepLoop g st) := by
  rw [stepLoop]
  rcases hpop : popMax st.pq with - | ⟨⟨u, pr⟩, rest⟩
  · exact h
  · have hu_mem : u ∈ g.for_each_node := h.pq_keys (u, pr) (popMax_mem _ _ _ hpop)
    have hrlen : rest.length + 1 = st.pq.length := popMax_rest_length _ _ _ hpop
    have hrsub := popMax_rest_subset _ _ _ hpop
    dsimp only
    by_cases hins : st.inspected.contains u
    · rw [if_pos hins]
      refine ⟨h.err_none, fun e he => h.pq_keys e (hrsub e he), h.p_all, h.n_all,
        h.insp_keys, h.insp_nodup, ?_, h.count_log⟩
      have := h.count_pp
      dsimp only
      omega
    · rw [if_neg hins]
      obtain ⟨pu, hpu⟩ := Option.isSome_iff_exists.mp (h.p_all u hu_mem)
      obtain ⟨nu, hnu⟩ := Option.isSome_iff_exists.mp (h.n_all u hu_mem)
      obtain ⟨nd, hnd⟩ := Option.isSome_iff_exists.mp
        (lookupW_isSome_of_mem_keys g.nodes u hu_mem)
      rw [hpu, hnu]
      dsimp only
      rw [Graph.for_each_neighbour, hnd]
      dsimp only
      have hu_not : u ∉ st.inspected := fun hmem => hins (List.elem_iff.mpr hmem)
      have hnbrs : ∀ x ∈ nd.out_neighbours, x ∈ g.for_each_node :=
        hWF.2 (u, nd) (lookupW_mem _ _ _ hnd)
      obtain ⟨herr2, hp2, hn2, hpq2, hlen2, hlog2, hform2, hgrow2⟩ :=
        foldl_relax_inv g u (max (pu - nu) 0) nd.out_neighbours
          ⟨st.p_scores, st.n_scores, u :: st.inspected, rest, st.pushLog,
            st.pops + 1, st.relaxCount, st.err⟩
          (by rw [hnd]; rfl) hnbrs h.err_none h.p_all h.n_all
      have hinsp := foldl_relax_inspected g u (max (pu - nu) 0) nd.out_neighbours
        ⟨st.p_scores, st.n_scores, u :: st.inspected, rest, st.pushLog,
          st.pops + 1, st.relaxCount, st.err⟩
      have hpops := foldl_relax_pops g u (max (pu - nu) 0) nd.out_neighbours
        ⟨st.p_scores, st.n_scores, u :: st.inspected, rest, st.pushLog,
          st.pops + 1, st.relaxCount, st.err⟩
      dsimp only at herr2 hp2 hn2 hpq2 hlen2 hlog2 hform2 hinsp hpops
      refine ⟨herr2, ?_, hp2, hn2, ?_, ?_, ?_, ?_⟩
      · intro e he
        rcases hpq2 e he with h' | h'
        · exact h.pq_keys e (hrsub e h')
        · exact hnbrs e.1 h'
      · rw [hinsp]
        intro k hk
        rcases List.mem_cons.mp hk with hk | hk
        · exact hk ▸ hu_mem
        · exact h.insp_keys k hk
      · rw [hinsp]
        exact List.nodup_cons.mpr ⟨hu_not, h.insp_nodup⟩
      · rw [hpops]
        have := h.count_pp
        omega
      · have := h.count_log
        omega

/-- The master invariant is preserved by any number of loop
iterations. -/
theorem loopIter_inv (g : Graph) (hWF : g.WF) (fuel : ℕ) (st : EngineState)
    (h : StateInv g st) : StateInv g (loopIter g fuel st) := by
  induction fuel generalizing st with
  | zero => exact h
  | succ f ih =>
    rw [loopIter]
    by_cases hh : st.halted
    · rw [if_pos hh]
      exact h
    · rw [if_neg hh]
      exact ih _ (stepLoop_inv g hWF st h)

/-- The master invariant holds after initialization. -/
theorem initState_inv (g : Graph) (source : String) :
    StateInv g (initState g source) := by
  refine ⟨?_, ?_, ?_, ?_, ?_, ?_, ?_, ?_⟩
  · exact initFold_err source _ _
  · intro e he
    rcases initFold_pq_sub source _ _ e he with h | h
    · simp [EngineState.empty] at h
    · exact h
  · intro k hk
    exact initFold_p_isSome source _ _ k (Or.inl hk)
  · intro k hk
    exact initFold_n_isSome source _ _ k (Or.inl hk)
  · intro k hk
    rw [initState, initFold_inspected] at hk
    simp [EngineState.empty] at hk
  · rw [initState, initFold_inspected]
    exact List.nodup_nil
  · rw [initState, initFold_pops, initFold_log_len]
    have := initFold_pq_len source g.for_each_node EngineState.empty
    simp [EngineState.empty] at this ⊢
    exact this
  · rw [initState, initFold_log_len, initFold_relax]
    simp [EngineState.empty]

/-! ### Termination of the relaxation loop -/

theorem sum_filter_drop (l : List String) (u : String) (p : String → Bool)
    (f : String → ℕ) (hnd : l.Nodup) (hu : u ∈ l) (hpu : p u = true) :
    ((l.filter (fun k => !(k == u) && p k)).map f).sum + f u
      = ((l.filter p).map f).sum := by
  induction l with
  | nil => simp at hu
  | cons a t ih =>
    rw [List.filter_cons, List.filter_cons]
    rcases List.mem_cons.mp hu with h | h
    · subst h
      have hut : u ∉ t := (List.nodup_cons.mp hnd).1
      have hre : t.filter (fun k => !(k == u) && p k) = t.filter p := by
        apply List.filter_congr
        intro x hx
        have hxu : (x == u) = false :=
          beq_eq_false_iff_ne.mpr (fun hxu => hut (hxu ▸ hx))
        rw [hxu]
        simp
      simp only [beq_self_eq_true, Bool.not_true, Bool.false_and, Bool.false_eq_true,
        if_false, hpu, if_true, hre, List.map_cons, List.sum_cons]
      omega
    · have hat : a ∉ t := (List.nodup_cons.mp hnd).1
      have hau : (a == u) = false :=
        beq_eq_false_iff_ne.mpr (fun hau => hat (hau ▸ h))
      have hnd' : t.Nodup := (List.nodup_cons.mp hnd).2
      by_cases hpa : p a = true
      · simp only [hau, Bool.not_false, Bool.true_and, hpa, if_true, List.map_cons,
          List.sum_cons]
        have := ih hnd' h
        omega
      · have hpa' : p a = false := Bool.eq_false_iff.mpr hpa
        simp only [hau, Bool.not_false, Bool.true_and, hpa', Bool.false_eq_true,
          if_false]
        exact ih hnd' h

/-- On well-formed graphs, every unfinished loop iteration strictly
decreases the variant `measureM`. -/
theorem measure_decrease (g : Graph) (hWF : g.WF) (st : EngineState)
    (hinv : StateInv g st) (hh : st.halted = false) :
    measureM g (stepLoop g st) < measureM g st := by
  have hpqne : st.pq ≠ [] := by
    intro hpq
    rw [EngineState.halted, hpq] at hh
    simp [hinv.err_none] at hh
  rw [stepLoop]
  rcases hpop : popMax st.pq with - | ⟨⟨u, pr⟩, rest⟩
  · exact absurd ((popMax_eq_none_iff _).mp hpop) hpqne
  · have hu_mem : u ∈ g.for_each_node := hinv.pq_keys (u, pr) (popMax_mem _ _ _ hpop)
    have hrlen : rest.length + 1 = st.pq.length := popMax_rest_length _ _ _ hpop
    dsimp only
    by_cases hins : st.inspected.contains u
    · rw [if_pos hins]
      unfold measureM
      dsimp only
      omega
    · rw [if_neg hins]
      obtain ⟨pu, hpu⟩ := Option.isSome_iff_exists.mp (hinv.p_all u hu_mem)
      obtain ⟨nu, hnu⟩ := Option.isSome_iff_exists.mp (hinv.n_all u hu_mem)
      obtain ⟨nd, hnd⟩ := Option.isSome_iff_exists.mp
        (lookupW_isSome_of_mem_keys g.nodes u hu_mem)
      rw [hpu, hnu]
      dsimp only
      rw [Graph.for_each_neighbour, hnd]
      dsimp only
      obtain ⟨herr2, hp2, hn2, hpq2, hlen2, hlog2, hform2, hgrow2⟩ :=
        foldl_relax_inv g u (max (pu - nu) 0) nd.out_neighbours
          ⟨st.p_scores, st.n_scores, u :: st.inspected, rest, st.pushLog,
            st.pops + 1, st.relaxCount, st.err⟩
          (by rw [hnd]; rfl) (hWF.2 (u, nd) (lookupW_mem _ _ _ hnd))
          hinv.err_none hinv.p_all hinv.n_all
      have hinsp := foldl_relax_inspected g u (max (pu - nu) 0) nd.out_neighbours
        ⟨st.p_scores, st.n_scores, u :: st.inspected, rest, st.pushLog,
          st.pops + 1, st.relaxCount, st.err⟩
      dsimp only at hlen2 hgrow2 hinsp
      unfold measureM
      rw [hinsp]
      have hsum := sum_filter_drop g.for_each_node u
        (fun k => !st.inspected.contains k) (fun k => outDeg g k + 1)
        hWF.1 hu_mem (by dsimp only; rw [Bool.eq_false_iff.mpr hins]; rfl)
      have hpred : (g.for_each_node.filter
          (fun k => !(u :: st.inspected).contains k)) =
          g.for_each_node.filter (fun k => !(k == u) && !st.inspected.contains k) := by
        apply List.filter_congr
        intro x hx
        rw [List.contains_cons, Bool.not_or]
      rw [hpred]
      have hdeg : outDeg g u = nd.out_neighbours.length := by
        rw [outDeg, hnd]
        rfl
      dsimp only at hsum ⊢
      omega

/-- With fuel at least the variant, the loop runs to completion. -/
theorem loopIter_halts (g : Graph) (hWF : g.WF) (fuel : ℕ) (st : EngineState)
    (hinv : StateInv g st) (hm : measureM g st ≤ fuel) :
    (loopIter g fuel st).halted = true := by
  induction fuel generalizing st with
  | zero =>
    have hlen : st.pq.length = 0 := by
      unfold measureM at hm
      omega
    have hpq : st.pq = [] := List.length_eq_zero.mp hlen
    rw [loopIter, EngineState.halted, hpq]
    simp
  | succ f ih =>
    by_cases hh : st.halted
    · rw [loopIter_halted g _ st hh]
      exact hh
    · rw [loopIter, if_neg hh]
      refine ih _ (stepLoop_inv g hWF st hinv) ?_
      have := measure_decrease g hWF st hinv (Bool.eq_false_iff.mpr hh)
      omega

/-- The fuel used by `compute_scores` dominates the initial variant. -/
theorem measure_init_le (g : Graph) (source : String) :
    measureM g (initState g source) ≤ computeFuel g := by
  unfold measureM computeFuel
  have h1 : (initState g source).pq.length ≤ g.for_each_node.length := by
    have := initFold_pq_len source g.for_each_node EngineState.empty
    simpa [initState, EngineState.empty] using this
  have h2 : (g.for_each_node.filter
      (fun k => !(initState g source).inspected.contains k)) = g.for_each_node := by
    rw [initState, initFold_inspected]
    apply List.filter_eq_self.mpr
    intro a ha
    rfl
  rw [h2]
  omega

theorem stepLoop_inspected_sub (g : Graph) (st : EngineState) :
    st.inspected ⊆ (stepLoop g st).inspected := by
  rw [stepLoop]
  rcases hpop : popMax st.pq with - | ⟨⟨u, pr⟩, rest⟩
  · exact fun x hx => hx
  · dsimp only
    by_cases hins : st.inspected.contains u
    · rw [if_pos hins]
      exact fun x hx => hx
    · rw [if_neg hins]
      rcases hpu : lookupW st.p_scores u with - | pu <;> try dsimp only
      · exact fun x hx => List.mem_cons_of_mem _ hx
      · rcases hnu : lookupW st.n_scores u with - | nu <;> try dsimp only
        · exact fun x hx => List.mem_cons_of_mem _ hx
        · rcases hnb : g.for_each_neighbour u with e | nbrs <;> try dsimp only
          · exact fun x hx => List.mem_cons_of_mem _ hx
          · rw [foldl_relax_inspected]
            exact fun x hx => List.mem_cons_of_mem _ hx

/-- Claim C8: on every well-formed graph the relaxation loop of
`compute_scores` terminates — the standard fuel empties the frontier —
while along the whole run the visited set grows monotonically and stays
within the node count, the number of pops never exceeds the number of
pushes, and total pushes equal the node count plus the total relaxation
count. -/
theorem c8_termination_bounds (g : Graph) (source : String) (hWF : g.WF) :
    (finalState g source).pq = [] ∧
    (∀ k : ℕ, (loopIter g k (initState g source)).inspected ⊆
      (loopIter g (k + 1) (initState g source)).inspected) ∧
    (∀ k : ℕ, (loopIter g k (initState g source)).inspected.length ≤
      g.for_each_node.length) ∧
    (∀ k : ℕ, (loopIter g k (initState g source)).pops ≤
      (loopIter g k (initState g source)).pushLog.length) ∧
    (∀ k : ℕ, (loopIter g k (initState g source)).pushLog.length =
      g.for_each_node.length + (loopIter g k (initState g source)).relaxCount) := by
  have hinv : ∀ k : ℕ, StateInv g (loopIter g k (initState g source)) :=
    fun k => loopIter_inv g hWF k _ (initState_inv g source)
  refine ⟨?_, ?_, ?_, ?_, ?_⟩
  · have hhalt := loopIter_halts g hWF (computeFuel g) (initState g source)
      (initState_inv g source) (measure_init_le g source)
    have herr := (hinv (computeFuel g)).err_none
    rw [EngineState.halted, herr] at hhalt
    simp only [Option.isSome_none, Bool.false_or] at hhalt
    rw [finalState]
    exact List.isEmpty_iff.mp hhalt
  · intro k
    rw [loopIter_succ_outer, haltStep]
    by_cases hh : (loopIter g k (initState g source)).halted
    · rw [if_pos hh]
      exact fun x hx => hx
    · rw [if_neg hh]
      exact stepLoop_inspected_sub g _
  · intro k
    exact (List.subperm_of_subset (hinv k).insp_nodup (hinv k).insp_keys).length_le
  · intro k
    have := (hinv k).count_pp
    omega
  · intro k
    exact (hinv k).count_log

/-- Witness for C8: on Example A the frontier of the finished run is
empty. -/
theorem c8_witness : (finalState exampleGraphA "A").pq = [] :=
  (c8_termination_bounds exampleGraphA "A" (by with_unfolding_all decide)).1

/-! ### Monotonicity of scores (Claim C4) -/

theorem scoresLE_refl (m : List (String × ℚ)) : scoresLE m m :=
  fun _ v h => ⟨v, h, le_refl v⟩

theorem scoresLE_trans (m1 m2 m3 : List (String × ℚ))
    (h12 : scoresLE m1 m2) (h23 : scoresLE m2 m3) : scoresLE m1 m3 := by
  intro k v h
  obtain ⟨v2, h2, hle2⟩ := h12 k v h
  obtain ⟨v3, h3, hle3⟩ := h23 k v2 h2
  exact ⟨v3, h3, le_trans hle2 hle3⟩

theorem scoresLE_upsert (m : List (String × ℚ)) (k : String) (v w : ℚ)
    (hv : lookupW m k = some v) (hvw : v ≤ w) : scoresLE m (upsert k w m) := by
  intro k' v' h'
  by_cases hk : k' = k
  · subst hk
    rw [hv] at h'
    injection h' with h'
    exact ⟨w, lookupW_upsert_self _ _ _, h' ▸ hvw⟩
  · exact ⟨v', by rw [lookupW_upsert_ne _ _ _ _ hk]; exact h', le_refl _⟩

theorem node_get_positive_weight_nonneg (g : Graph) (hW : NonnegWeights g)
    (u : String) (nd : Node) (hmem : lookupW g.nodes u = some nd) (t : String) :
    0 ≤ nd.get_positive_weight t := by
  unfold Node.get_positive_weight
  rcases hl : lookupW nd.positive_edges t with - | w
  · simp
  · simpa using (hW (u, nd) (lookupW_mem _ _ _ hmem)).1 (t, w) (lookupW_mem _ _ _ hl)

theorem node_get_negative_weight_nonneg (g : Graph) (hW : NonnegWeights g)
    (u : String) (nd : Node) (hmem : lookupW g.nodes u = some nd) (t : String) :
    0 ≤ nd.get_negative_weight t := by
  unfold Node.get_negative_weight
  rcases hl : lookupW nd.negative_edges t with - | w
  · simp
  · simpa using (hW (u, nd) (lookupW_mem _ _ _ hmem)).2 (t, w) (lookupW_mem _ _ _ hl)

/-- When a panic fires or a lookup is missing, the per-neighbour body
leaves both score maps untouched. -/
theorem relaxNeighbor_maps_of_bad (g : Graph) (u nb : String) (ns : ℚ)
    (st : EngineState)
    (h : st.err.isSome = true ∨ lookupW st.p_scores nb = none ∨
      lookupW st.n_scores nb = none ∨ lookupW g.nodes u = none) :
    (relaxNeighbor g u ns st nb).p_scores = st.p_scores ∧
    (relaxNeighbor g u ns st nb).n_scores = st.n_scores := by
  rcases h with h | h | h | h
  · simp [relaxNeighbor, h]
  · rcases herr : st.err.isSome with - | -
    · simp [relaxNeighbor, herr, h]
    · simp [relaxNeighbor, herr]
  · rcases herr : st.err.isSome with - | -
    · rcases hp : lookupW st.p_scores nb with - | pnb
      · simp [relaxNeighbor, herr, hp]
      · simp [relaxNeighbor, herr, hp, h]
    · simp [relaxNeighbor, herr]
  · rcases herr : st.err.isSome with - | -
    · rcases hp : lookupW st.p_scores nb with - | pnb
      · simp [relaxNeighbor, herr, hp]
      · rcases hn : lookupW st.n_scores nb with - | nnb
        · simp [relaxNeighbor, herr, hp, hn]
        · simp only [relaxNeighbor, herr, Bool.false_eq_true, if_false, hp, hn]
          split
          · exact ⟨rfl, rfl⟩
          · simp [Graph.get_positive_weight, Graph.get_negative_weight, h]
    · simp [relaxNeighbor, herr]

/-- With non-negative weights, one per-neighbour step never lowers any
score. -/
theorem relaxNeighbor_mono (g : Graph) (hW : NonnegWeights g) (u nb : String)
    (ns : ℚ) (st : EngineState) :
    scoresLE st.p_scores (relaxNeighbor g u ns st nb).p_scores ∧
    scoresLE st.n_scores (relaxNeighbor g u ns st nb).n_scores := by
  rcases herr : st.err with e | e
  · rcases hp : lookupW st.p_scores nb with - | pnb
    · obtain ⟨h1, h2⟩ := relaxNeighbor_maps_of_bad g u nb ns st (Or.inr (Or.inl hp))
      rw [h1, h2]
      exact ⟨scoresLE_refl _, scoresLE_refl _⟩
    · rcases hn : lookupW st.n_scores nb with - | nnb
      · obtain ⟨h1, h2⟩ :=
          relaxNeighbor_maps_of_bad g u nb ns st (Or.inr (Or.inr (Or.inl hn)))
        rw [h1, h2]
        exact ⟨scoresLE_refl _, scoresLE_refl _⟩
      · rcases hnd : lookupW g.nodes u with - | nd
        · obtain ⟨h1, h2⟩ :=
            relaxNeighbor_maps_of_bad g u nb ns st (Or.inr (Or.inr (Or.inr hnd)))
          rw [h1, h2]
          exact ⟨scoresLE_refl _, scoresLE_refl _⟩
        · rw [relaxNeighbor_spec g u nb ns pnb nnb nd st herr hp hn hnd]
          split
          · exact ⟨scoresLE_refl _, scoresLE_refl _⟩
          · constructor
            · dsimp only
              split
              · rename_i h1
                refine scoresLE_upsert _ _ _ _ hp ?_
                rw [interp, if_pos h1]
                have := node_get_positive_weight_nonneg g hW u nd hnd nb
                nlinarith
              · exact scoresLE_refl _
            · dsimp only
              split
              · rename_i h2
                refine scoresLE_upsert _ _ _ _ hn ?_
                rw [interp, if_pos h2]
                have := node_get_negative_weight_nonneg g hW u nd hnd nb
                nlinarith
              · exact scoresLE_refl _
  · obtain ⟨h1, h2⟩ := relaxNeighbor_maps_of_bad g u nb ns st
      (Or.inl (by rw [herr]; rfl))
    rw [h1, h2]
    exact ⟨scoresLE_refl _, scoresLE_refl _⟩

theorem foldl_relax_mono (g : Graph) (hW : NonnegWeights g) (u : String) (ns : ℚ)
    (l : List String) (st : EngineState) :
    scoresLE st.p_scores (l.foldl (relaxNeighbor g u ns) st).p_scores ∧
    scoresLE st.n_scores (l.foldl (relaxNeighbor g u ns) st).n_scores := by
  induction l generalizing st with
  | nil => exact ⟨scoresLE_refl _, scoresLE_refl _⟩
  | cons a t ih =>
    rw [List.foldl_cons]
    obtain ⟨hp1, hn1⟩ := relaxNeighbor_mono g hW u a ns st
    obtain ⟨hp2, hn2⟩ := ih (relaxNeighbor g u ns st a)
    exact ⟨scoresLE_trans _ _ _ hp1 hp2, scoresLE_trans _ _ _ hn1 hn2⟩

theorem stepLoop_mono (g : Graph) (hW : NonnegWeights g) (st : EngineState) :
    scoresLE st.p_scores (stepLoop g st).p_scores ∧
    scoresLE st.n_scores (stepLoop g st).n_scores := by
  rw [stepLoop]
  rcases hpop : popMax st.pq with - | ⟨⟨u, pr⟩, rest⟩
  · exact ⟨scoresLE_refl _, scoresLE_refl _⟩
  · dsimp only
    by_cases hins : st.inspected.contains u
    · rw [if_pos hins]
      exact ⟨scoresLE_refl _, scoresLE_refl _⟩
    · rw [if_neg hins]
      rcases hpu : lookupW st.p_scores u with - | pu <;> try dsimp only
      · exact ⟨scoresLE_refl _, scoresLE_refl _⟩
      · rcases hnu : lookupW st.n_scores u with - | nu <;> try dsimp only
        · exact ⟨scoresLE_refl _, scoresLE_refl _⟩
        · rcases hnb : g.for_each_neighbour u with e | nbrs <;> try dsimp only
          · exact ⟨scoresLE_refl _, scoresLE_refl _⟩
          · exact foldl_relax_mono g hW u (max (pu - nu) 0) nbrs
              ⟨st.p_scores, st.n_scores, u :: st.inspected, rest, st.pushLog,
                st.pops + 1, st.relaxCount, st.err⟩

/-- Claim C4, amended: on graphs whose edge weights are non-negative,
both score maps are pointwise non-decreasing along the whole run —
between any two trajectory states, every recorded score is still
recorded and never lower. -/
theorem c4_scores_monotone (g : Graph) (source : String)
    (hW : NonnegWeights g) (k k' : ℕ) (hkk : k ≤ k') :
    scoresLE (loopIter g k (initState g source)).p_scores
      (loopIter g k' (initState g source)).p_scores ∧
    scoresLE (loopIter g k (initState g source)).n_scores
      (loopIter g k' (initState g source)).n_scores := by
  induction k' with
  | zero =>
    have : k = 0 := Nat.le_zero.mp hkk
    subst this
    exact ⟨scoresLE_refl _, scoresLE_refl _⟩
  | succ k' ih =>
    rcases Nat.lt_or_ge k (k' + 1) with h | h
    · have hk' : k ≤ k' := Nat.lt_succ_iff.mp h
      obtain ⟨hp1, hn1⟩ := ih hk'
      rw [loopIter_succ_outer, haltStep]
      by_cases hh : (loopIter g k' (initState g source)).halted
      · rw [if_pos hh]
        exact ⟨hp1, hn1⟩
      · rw [if_neg hh]
        obtain ⟨hp2, hn2⟩ := stepLoop_mono g hW (loopIter g k' (initState g source))
        exact ⟨scoresLE_trans _ _ _ hp1 hp2, scoresLE_trans _ _ _ hn1 hn2⟩
    · have : k = k' + 1 := Nat.le_antisymm hkk h
      subst this
      exact ⟨scoresLE_refl _, scoresLE_refl _⟩

/-- Witness for C4: along the run on Example A, node B's initialized
`p_score` of 0 is never lowered by the first iteration. -/
theorem c4_witness :
    ∃ v', lookupW (loopIter exampleGraphA 1
      (initState exampleGraphA "A")).p_scores "B" = some v' ∧ (0 : ℚ) ≤ v' :=
  (c4_scores_monotone exampleGraphA "A" (by with_unfolding_all decide) 0 1
    (by decide)).1 "B" 0 (by with_unfolding_all decide)

/-! ### Score bounds (Claim C10) -/

theorem boundedMap_upsert (m : List (String × ℚ)) (k : String) (v : ℚ)
    (hm : boundedMap m) (hv0 : 0 ≤ v) (hv1 : v ≤ 1) : boundedMap (upsert k v m) := by
  intro e he
  rcases mem_upsert _ _ _ _ he with h | h
  · rw [h]
    exact ⟨hv0, hv1⟩
  · exact hm e h

theorem boundedMap_lookup (m : List (String × ℚ)) (k : String) (v : ℚ)
    (hm : boundedMap m) (h : lookupW m k = some v) : 0 ≤ v ∧ v ≤ 1 :=
  hm (k, v) (lookupW_mem _ _ _ h)

theorem node_get_positive_weight_in01 (g : Graph) (hW : WeightsIn01 g)
    (u : String) (nd : Node) (hmem : lookupW g.nodes u = some nd) (t : String) :
    0 ≤ nd.get_positive_weight t ∧ nd.get_positive_weight t ≤ 1 := by
  unfold Node.get_positive_weight
  rcases hl : lookupW nd.positive_edges t with - | w
  · simp
  · simpa using (hW (u, nd) (lookupW_mem _ _ _ hmem)).1 (t, w) (lookupW_mem _ _ _ hl)

theorem node_get_negative_weight_in01 (g : Graph) (hW : WeightsIn01 g)
    (u : String) (nd : Node) (hmem : lookupW g.nodes u = some nd) (t : String) :
    0 ≤ nd.get_negative_weight t ∧ nd.get_negative_weight t ≤ 1 := by
  unfold Node.get_negative_weight
  rcases hl : lookupW nd.negative_edges t with - | w
  · simp
  · simpa using (hW (u, nd) (lookupW_mem _ _ _ hmem)).2 (t, w) (lookupW_mem _ _ _ hl)

theorem interp_in01 (ns old w : ℚ) (hns0 : 0 ≤ ns) (hns1 : ns ≤ 1)
    (hold0 : 0 ≤ old) (hold1 : old ≤ 1) (hw0 : 0 ≤ w) (hw1 : w ≤ 1) :
    0 ≤ interp ns old w ∧ interp ns old w ≤ 1 := by
  rw [interp]
  split
  · rename_i h
    constructor
    · nlinarith
    · nlinarith
  · exact ⟨hold0, hold1⟩

theorem initFold_bounded (source : String) (l : List String) (st : EngineState)
    (hp : boundedMap st.p_scores) (hn : boundedMap st.n_scores) :
    boundedMap (l.foldl (initNode source) st).p_scores ∧
    boundedMap (l.foldl (initNode source) st).n_scores := by
  induction l generalizing st with
  | nil => exact ⟨hp, hn⟩
  | cons a t ih =>
    rw [List.foldl_cons]
    refine ih _ ?_ ?_
    · refine boundedMap_upsert _ _ _ hp ?_ ?_ <;> dsimp only <;> split
      · exact zero_le_one
      · exact le_refl 0
      · exact le_refl 1
      · exact zero_le_one
    · exact boundedMap_upsert _ _ _ hn (le_refl 0) zero_le_one

/-- With weights in `[0, 1]` and a node score in `[0, 1]`, one
per-neighbour step keeps both score maps inside `[0, 1]`. -/
theorem relaxNeighbor_bounded (g : Graph) (hW : WeightsIn01 g) (u nb : String)
    (ns : ℚ) (st : EngineState) (hns0 : 0 ≤ ns) (hns1 : ns ≤ 1)
    (hp : boundedMap st.p_scores) (hn : boundedMap st.n_scores) :
    boundedMap (relaxNeighbor g u ns st nb).p_scores ∧
    boundedMap (relaxNeighbor g u ns st nb).n_scores := by
  rcases herr : st.err with e | e
  · rcases hp' : lookupW st.p_scores nb with - | pnb
    · obtain ⟨h1, h2⟩ := relaxNeighbor_maps_of_bad g u nb ns st (Or.inr (Or.inl hp'))
      rw [h1, h2]
      exact ⟨hp, hn⟩
    · rcases hn' : lookupW st.n_scores nb with - | nnb
      · obtain ⟨h1, h2⟩ :=
          relaxNeighbor_maps_of_bad g u nb ns st (Or.inr (Or.inr (Or.inl hn')))
        rw [h1, h2]
        exact ⟨hp, hn⟩
      · rcases hnd : lookupW g.nodes u with - | nd
        · obtain ⟨h1, h2⟩ :=
            relaxNeighbor_maps_of_bad g u nb ns st (Or.inr (Or.inr (Or.inr hnd)))
          rw [h1, h2]
          exact ⟨hp, hn⟩
        · rw [relaxNeighbor_spec g u nb ns pnb nnb nd st herr hp' hn' hnd]
          split
          · exact ⟨hp, hn⟩
          · obtain ⟨hpnb0, hpnb1⟩ := boundedMap_lookup _ _ _ hp hp'
            obtain ⟨hnnb0, hnnb1⟩ := boundedMap_lookup _ _ _ hn hn'
            obtain ⟨hpw0, hpw1⟩ := node_get_positive_weight_in01 g hW u nd hnd nb
            obtain ⟨hnw0, hnw1⟩ := node_get_negative_weight_in01 g hW u nd hnd nb
            constructor
            · dsimp only
              split
              · refine boundedMap_upsert _ _ _ hp ?_ ?_
                · exact (interp_in01 ns pnb _ hns0 hns1 hpnb0 hpnb1 hpw0 hpw1).1
                · exact (interp_in01 ns pnb _ hns0 hns1 hpnb0 hpnb1 hpw0 hpw1).2
              · exact hp
            · dsimp only
              split
              · refine boundedMap_upsert _ _ _ hn ?_ ?_
                · exact (interp_in01 ns nnb _ hns0 hns1 hnnb0 hnnb1 hnw0 hnw1).1
                · exact (interp_in01 ns nnb _ hns0 hns1 hnnb0 hnnb1 hnw0 hnw1).2
              · exact hn
  · obtain ⟨h1, h2⟩ := relaxNeighbor_maps_of_bad g u nb ns st
      (Or.inl (by rw [herr]; rfl))
    rw [h1, h2]
    exact ⟨hp, hn⟩

theorem foldl_relax_bounded (g : Graph) (hW : WeightsIn01 g) (u : String)
    (ns : ℚ) (l : List String) (st : EngineState) (hns0 : 0 ≤ ns) (hns1 : ns ≤ 1)
    (hp : boundedMap st.p_scores) (hn : boundedMap st.n_scores) :
    boundedMap (l.foldl (relaxNeighbor g u ns) st).p_scores ∧
    boundedMap (l.foldl (relaxNeighbor g u ns) st).n_scores := by
  induction l generalizing st with
  | nil => exact ⟨hp, hn⟩
  | cons a t ih =>
    rw [List.foldl_cons]
    obtain ⟨hp1, hn1⟩ := relaxNeighbor_bounded g hW u a ns st hns0 hns1 hp hn
    exact ih _ hp1 hn1

theorem stepLoop_bounded (g : Graph) (hW : WeightsIn01 g) (st : EngineState)
    (hp : boundedMap st.p_scores) (hn : boundedMap st.n_scores) :
    boundedMap (stepLoop g st).p_scores ∧ boundedMap (stepLoop g st).n_scores := by
  rw [stepLoop]
  rcases hpop : popMax st.pq with - | ⟨⟨u, pr⟩, rest⟩
  · exact ⟨hp, hn⟩
  · dsimp only
    by_cases hins : st.inspected.contains u
    · rw [if_pos hins]
      exact ⟨hp, hn⟩
    · rw [if_neg hins]
      rcases hpu : lookupW st.p_scores u with - | pu <;> try dsimp only
      · exact ⟨hp, hn⟩
      · rcases hnu : lookupW st.n_scores u with - | nu <;> try dsimp only
        · exact ⟨hp, hn⟩
        · rcases hnb : g.for_each_neighbour u with e | nbrs <;> try dsimp only
          · exact ⟨hp, hn⟩
          · obtain ⟨hpu0, hpu1⟩ := boundedMap_lookup _ _ _ hp hpu
            obtain ⟨hnu0, hnu1⟩ := boundedMap_lookup _ _ _ hn hnu
            exact foldl_relax_bounded g hW u (max (pu - nu) 0) nbrs
              ⟨st.p_scores, st.n_scores, u :: st.inspected, rest, st.pushLog,
                st.pops + 1, st.relaxCount, st.err⟩
              (le_max_right _ _) (max_le (by linarith) zero_le_one) hp hn

theorem extractFold_error (source : String) (st : EngineState) (l : List String)
    (e : Err) : l.foldl (extractRow source st) (.error e) = .error e := by
  induction l with
  | nil => rfl
  | cons a t ih => rw [List.foldl_cons]; exact ih

theorem extractFold_rows (source : String) (st : EngineState) (l : List String)
    (acc rs : List TResult)
    (h : l.foldl (extractRow source st) (.ok acc) = .ok rs)
    (hacc : ∀ r ∈ acc, lookupW st.p_scores r.node = some r.p_score ∧
      lookupW st.n_scores r.node = some r.n_score) :
    ∀ r ∈ rs, lookupW st.p_scores r.node = some r.p_score ∧
      lookupW st.n_scores r.node = some r.n_score := by
  induction l generalizing acc with
  | nil =>
    rw [List.foldl_nil] at h
    injection h with h
    exact h ▸ hacc
  | cons a t ih =>
    rw [List.foldl_cons] at h
    rw [extractRow] at h
    by_cases ha : a = source
    · rw [if_pos ha] at h
      exact ih acc h hacc
    · rw [if_neg ha] at h
      rcases hpa : lookupW st.p_scores a with - | pa
      · rw [hpa] at h
        dsimp only at h
        rw [extractFold_error] at h
        exact absurd h (by simp)
      · rcases hna : lookupW st.n_scores a with - | na
        · rw [hpa, hna] at h
          dsimp only at h
          rw [extractFold_error] at h
          exact absurd h (by simp)
        · rw [hpa, hna] at h
          dsimp only at h
          refine ih (acc ++ [⟨a, pa, na⟩]) h ?_
          intro r hr
          rcases List.mem_append.mp hr with hr | hr
          · exact hacc r hr
          · simp only [List.mem_singleton] at hr
            subst hr
            exact ⟨hpa, hna⟩

/-- Claim C10: with all edge weights in `[0, 1]` and the source a node
of the graph, every `p_score` and `n_score` held in the score maps at
any point of the run lies in `[0, 1]`, and hence so does every score in
the returned Results. -/
theorem c10_scores_bounded (g : Graph) (source : String)
    (hW : WeightsIn01 g) (hs : source ∈ g.for_each_node) :
    (∀ k : ℕ, boundedMap (loopIter g k (initState g source)).p_scores ∧
      boundedMap (loopIter g k (initState g source)).n_scores) ∧
    (∀ rs, compute_scores g source = .ok rs →
      ∀ r ∈ rs, (0 ≤ r.p_score ∧ r.p_score ≤ 1) ∧
        (0 ≤ r.n_score ∧ r.n_score ≤ 1)) := by
  have hinit : boundedMap (initState g source).p_scores ∧
      boundedMap (initState g source).n_scores := by
    refine initFold_bounded source g.for_each_node EngineState.empty ?_ ?_ <;>
      intro e he <;> simp [EngineState.empty] at he
  have htraj : ∀ k : ℕ, boundedMap (loopIter g k (initState g source)).p_scores ∧
      boundedMap (loopIter g k (initState g source)).n_scores := by
    intro k
    induction k with
    | zero => exact hinit
    | succ k ih =>
      rw [loopIter_succ_outer, haltStep]
      by_cases hh : (loopIter g k (initState g source)).halted
      · rw [if_pos hh]
        exact ih
      · rw [if_neg hh]
        exact stepLoop_bounded g hW _ ih.1 ih.2
  refine ⟨htraj, ?_⟩
  intro rs hrs r hr
  rw [compute_scores] at hrs
  rcases herr : (finalState g source).err with - | e
  · rw [herr] at hrs
    dsimp only at hrs
    have hrows := extractFold_rows source (finalState g source) g.for_each_node [] rs
      hrs (by intro r hr; simp at hr) r hr
    have hbound := htraj (computeFuel g)
    exact ⟨boundedMap_lookup _ _ _ hbound.1 hrows.1,
      boundedMap_lookup _ _ _ hbound.2 hrows.2⟩
  · rw [herr] at hrs
    dsimp only at hrs
    exact absurd hrs (by simp)

/-- Witness for C10: instantiated on Example A with source A after two
iterations, for node C. -/
theorem c10_witness :
    boundedMap (loopIter exampleGraphA 2 (initState exampleGraphA "A")).p_scores ∧
    boundedMap (loopIter exampleGraphA 2 (initState exampleGraphA "A")).n_scores :=
  (c10_scores_bounded exampleGraphA "A" (by with_unfolding_all decide)
    (by decide)).1 2

/-! ### Push priorities (Claim C5) -/

theorem relaxNeighbor_log_form (g : Graph) (u : String) (ns : ℚ)
    (st : EngineState) (nb : String) :
    ∀ e ∈ (relaxNeighbor g u ns st nb).pushLog,
      e ∈ st.pushLog ∨ e.2.1 = toU32 (e.2.2 * 10) := by
  simp only [relaxNeighbor]
  repeat' split
  all_goals intro e he
  all_goals try exact Or.inl he
  all_goals
    dsimp only at he
    rcases List.mem_append.mp he with h | h
    · exact Or.inl h
    · simp only [List.mem_singleton] at h
      subst h
      right
      rfl

theorem foldl_relax_log_form (g : Graph) (u : String) (ns : ℚ)
    (l : List String) (st : EngineState) :
    ∀ e ∈ (l.foldl (relaxNeighbor g u ns) st).pushLog,
      e ∈ st.pushLog ∨ e.2.1 = toU32 (e.2.2 * 10) := by
  induction l generalizing st with
  | nil => exact fun e he => Or.inl he
  | cons a t ih =>
    rw [List.foldl_cons]
    intro e he
    rcases ih (relaxNeighbor g u ns st a) e he with h | h
    · exact relaxNeighbor_log_form g u ns st a e h
    · exact Or.inr h

theorem stepLoop_log_form (g : Graph) (st : EngineState) :
    ∀ e ∈ (stepLoop g st).pushLog,
      e ∈ st.pushLog ∨ e.2.1 = toU32 (e.2.2 * 10) := by
  rw [stepLoop]
  rcases hpop : popMax st.pq with - | ⟨⟨u, pr⟩, rest⟩
  · exact fun e he => Or.inl he
  · dsimp only
    by_cases hins : st.inspected.contains u
    · rw [if_pos hins]
      exact fun e he => Or.inl he
    · rw [if_neg hins]
      rcases hpu : lookupW st.p_scores u with - | pu <;> try dsimp only
      · exact fun e he => Or.inl he
      · rcases hnu : lookupW st.n_scores u with - | nu <;> try dsimp only
        · exact fun e he => Or.inl he
        · rcases hnb : g.for_each_neighbour u with e' | nbrs <;> try dsimp only
          · exact fun e he => Or.inl he
          · exact foldl_relax_log_form g u (max (pu - nu) 0) nbrs
              ⟨st.p_scores, st.n_scores, u :: st.inspected, rest, st.pushLog,
                st.pops + 1, st.relaxCount, st.err⟩

/-- Claim C5, amended: every entry pushed into the frontier carries the
saturating `u32` cast of `net_score × 10` — the floor for non-negative
nets inside the `u32` range, but 0 (not `⌊net × 10⌋`) for negative net
scores. -/
theorem c5_push_priority (g : Graph) (source : String) (k : ℕ) :
    (∀ e ∈ (loopIter g k (initState g source)).pushLog,
      e.2.1 = toU32 (e.2.2 * 10)) ∧
    (∀ q : ℚ, 0 ≤ q → q * 10 ≤ 2 ^ 32 - 1 → (toU32 (q * 10) : ℤ) = ⌊q * 10⌋) ∧
    (∀ q : ℚ, q < 0 → toU32 (q * 10) = 0) := by
  refine ⟨?_, ?_, ?_⟩
  · induction k with
    | zero =>
      intro e he
      exact initFold_log_form source g.for_each_node EngineState.empty
        (by intro x hx; simp [EngineState.empty] at hx) e he
    | succ k ih =>
      rw [loopIter_succ_outer, haltStep]
      by_cases hh : (loopIter g k (initState g source)).halted
      · rw [if_pos hh]
        exact ih
      · rw [if_neg hh]
        intro e he
        rcases stepLoop_log_form g (loopIter g k (initState g source)) e he with h | h
        · exact ih e h
        · exact h
  · intro q hq0 hq1
    have h10 : (0 : ℚ) ≤ q * 10 := by nlinarith
    rw [toU32, if_neg (not_lt.mpr h10)]
    have hfl : ⌊q * 10⌋ ≤ ((2 ^ 32 - 1 : ℕ) : ℤ) := by
      have : ⌊q * 10⌋ ≤ ⌊(2 ^ 32 - 1 : ℚ)⌋ := Int.floor_le_floor hq1
      refine le_trans this ?_
      norm_num
    have hnn : 0 ≤ ⌊q * 10⌋ := Int.floor_nonneg.mpr h10
    have hmin : min (Int.toNat ⌊q * 10⌋) (2 ^ 32 - 1) = Int.toNat ⌊q * 10⌋ := by
      refine min_eq_left ?_
      omega
    rw [hmin]
    exact Int.toNat_of_nonneg hnn
  · intro q hq
    have : q * 10 < 0 := by nlinarith
    rw [toU32, if_pos this]

/-- Witness for C5: the priority recorded for the push of B in
Example C, the floor form at the non-negative net 3/5, and the clamp at
net −1. -/
theorem c5_witness :
    (0 : ℕ) = toU32 ((-1 : ℚ) * 10) ∧
    (toU32 ((3 / 5 : ℚ) * 10) : ℤ) = ⌊(3 / 5 : ℚ) * 10⌋ ∧
    toU32 ((-1 : ℚ) * 10) = 0 :=
  ⟨(c5_push_priority exampleGraphC "A" 1).1 ("B", 0, -1)
      (by with_unfolding_all decide),
   (c5_push_priority exampleGraphC "A" 1).2.1 (3 / 5) (by norm_num) (by norm_num),
   (c5_push_priority exampleGraphC "A" 1).2.2 (-1) (by norm_num)⟩

/-! ### The absent-source run (Claim C1) -/

theorem initFold_zero (source : String) (l : List String) (st : EngineState)
    (hsrc : source ∉ l)
    (hp : ∀ e ∈ st.p_scores, e.2 = 0) (hn : ∀ e ∈ st.n_scores, e.2 = 0) :
    (∀ e ∈ (l.foldl (initNode source) st).p_scores, e.2 = 0) ∧
    (∀ e ∈ (l.foldl (initNode source) st).n_scores, e.2 = 0) := by
  induction l generalizing st with
  | nil => exact ⟨hp, hn⟩
  | cons a t ih =>
    have hasrc : a ≠ source := fun h => hsrc (h ▸ List.mem_cons_self _ _)
    rw [List.foldl_cons]
    refine ih (initNode source st a) (fun h => hsrc (List.mem_cons_of_mem _ h)) ?_ ?_
    · intro e he
      dsimp only [initNode] at he
      rcases mem_upsert _ _ _ _ he with h | h
      · rw [h]
        simp [hasrc]
      · exact hp e h
    · intro e he
      dsimp only [initNode] at he
      rcases mem_upsert _ _ _ _ he with h | h
      · rw [h]
      · exact hn e h

/-- With node score 0 and all-zero score maps, one per-neighbour step
changes neither score map. -/
theorem relaxNeighbor_zero (g : Graph) (u nb : String) (st : EngineState)
    (hp : ∀ e ∈ st.p_scores, e.2 = 0) (hn : ∀ e ∈ st.n_scores, e.2 = 0) :
    (relaxNeighbor g u 0 st nb).p_scores = st.p_scores ∧
    (relaxNeighbor g u 0 st nb).n_scores = st.n_scores := by
  rcases herr : st.err with e | e
  · rcases hp' : lookupW st.p_scores nb with - | pnb
    · exact relaxNeighbor_maps_of_bad g u nb 0 st (Or.inr (Or.inl hp'))
    · rcases hn' : lookupW st.n_scores nb with - | nnb
      · exact relaxNeighbor_maps_of_bad g u nb 0 st (Or.inr (Or.inr (Or.inl hn')))
      · rcases hnd : lookupW g.nodes u with - | nd
        · exact relaxNeighbor_maps_of_bad g u nb 0 st (Or.inr (Or.inr (Or.inr hnd)))
        · have hpz : pnb = 0 := hp (nb, pnb) (lookupW_mem _ _ _ hp')
          have hnz : nnb = 0 := hn (nb, nnb) (lookupW_mem _ _ _ hn')
          rw [relaxNeighbor_spec g u nb 0 pnb nnb nd st herr hp' hn' hnd]
          split
          · exact ⟨rfl, rfl⟩
          · subst hpz
            subst hnz
            constructor
            · dsimp only
              rw [if_neg (lt_irrefl 0)]
            · dsimp only
              rw [if_neg (lt_irrefl 0)]
  · exact relaxNeighbor_maps_of_bad g u nb 0 st (Or.inl (by rw [herr]; rfl))

theorem foldl_relax_zero (g : Graph) (u : String) (l : List String)
    (st : EngineState)
    (hp : ∀ e ∈ st.p_scores, e.2 = 0) (hn : ∀ e ∈ st.n_scores, e.2 = 0) :
    (l.foldl (relaxNeighbor g u 0) st).p_scores = st.p_scores ∧
    (l.foldl (relaxNeighbor g u 0) st).n_scores = st.n_scores := by
  induction l generalizing st with
  | nil => exact ⟨rfl, rfl⟩
  | cons a t ih =>
    rw [List.foldl_cons]
    obtain ⟨h1, h2⟩ := relaxNeighbor_zero g u a st hp hn
    obtain ⟨h3, h4⟩ := ih (relaxNeighbor g u 0 st a)
      (by rw [h1]; exact hp) (by rw [h2]; exact hn)
    exact ⟨by rw [h3, h1], by rw [h4, h2]⟩

theorem stepLoop_zero (g : Graph) (st : EngineState)
    (hp : ∀ e ∈ st.p_scores, e.2 = 0) (hn : ∀ e ∈ st.n_scores, e.2 = 0) :
    (stepLoop g st).p_scores = st.p_scores ∧
    (stepLoop g st).n_scores = st.n_scores := by
  rw [stepLoop]
  rcases hpop : popMax st.pq with - | ⟨⟨u, pr⟩, rest⟩
  · exact ⟨rfl, rfl⟩
  · dsimp only
    by_cases hins : st.inspected.contains u
    · rw [if_pos hins]
      exact ⟨rfl, rfl⟩
    · rw [if_neg hins]
      rcases hpu : lookupW st.p_scores u with - | pu <;> try dsimp only
      · exact ⟨rfl, rfl⟩
      · rcases hnu : lookupW st.n_scores u with - | nu <;> try dsimp only
        · exact ⟨rfl, rfl⟩
        · rcases hnb : g.for_each_neighbour u with e' | nbrs <;> try dsimp only
          · exact ⟨rfl, rfl⟩
          · have hpz : pu = 0 := hp (u, pu) (lookupW_mem _ _ _ hpu)
            have hnz : nu = 0 := hn (u, nu) (lookupW_mem _ _ _ hnu)
            have hzero : max (pu - nu) 0 = 0 := by
              rw [hpz, hnz]
              simp
            rw [hzero]
            exact foldl_relax_zero g u nbrs
              ⟨st.p_scores, st.n_scores, u :: st.inspected, rest, st.pushLog,
                st.pops + 1, st.relaxCount, st.err⟩ hp hn

theorem extractFold_all_zero (source : String) (st : EngineState)
    (l : List String) (acc : List TResult) (hsrc : source ∉ l)
    (hvals : ∀ a ∈ l, lookupW st.p_scores a = some 0 ∧
      lookupW st.n_scores a = some 0) :
    l.foldl (extractRow source st) (.ok acc)
      = .ok (acc ++ l.map (fun a => ⟨a, 0, 0⟩)) := by
  induction l generalizing acc with
  | nil => simp
  | cons a t ih =>
    have hasrc : a ≠ source := fun h => hsrc (h ▸ List.mem_cons_self _ _)
    obtain ⟨hpa, hna⟩ := hvals a (List.mem_cons_self _ _)
    rw [List.foldl_cons, extractRow, if_neg hasrc, hpa, hna]
    dsimp only
    have hih := ih (acc ++ [(⟨a, 0, 0⟩ : TResult)])
      (fun h => hsrc (List.mem_cons_of_mem _ h))
      (fun x hx => hvals x (List.mem_cons_of_mem _ hx))
    rw [hih]
    simp

/-- Claim C1, amended: `compute_scores` does not validate the source;
on a well-formed graph with a source that is not a node, it neither
fails nor returns an error — it completes and returns one all-zero row
per node. -/
theorem c1_compute_absent_source_all_zero (g : Graph) (source : String)
    (hWF : g.WF) (hs : source ∉ g.for_each_node) :
    compute_scores g source = .ok (g.for_each_node.map (fun k => ⟨k, 0, 0⟩)) := by
  obtain ⟨hzp0, hzn0⟩ := initFold_zero source g.for_each_node EngineState.empty hs
    (by intro e he; simp [EngineState.empty] at he)
    (by intro e he; simp [EngineState.empty] at he)
  have hmaps : ∀ k : ℕ,
      (loopIter g k (initState g source)).p_scores = (initState g source).p_scores ∧
      (loopIter g k (initState g source)).n_scores = (initState g source).n_scores := by
    intro k
    induction k with
    | zero => exact ⟨rfl, rfl⟩
    | succ k ih =>
      rw [loopIter_succ_outer, haltStep]
      by_cases hh : (loopIter g k (initState g source)).halted
      · rw [if_pos hh]
        exact ih
      · rw [if_neg hh]
        obtain ⟨h1, h2⟩ := stepLoop_zero g (loopIter g k (initState g source))
          (by rw [ih.1]; exact hzp0) (by rw [ih.2]; exact hzn0)
        exact ⟨by rw [h1, ih.1], by rw [h2, ih.2]⟩
  have hinv := loopIter_inv g hWF (computeFuel g) _ (initState_inv g source)
  have hvals : ∀ a ∈ g.for_each_node,
      lookupW (finalState g source).p_scores a = some 0 ∧
      lookupW (finalState g source).n_scores a = some 0 := by
    intro a ha
    obtain ⟨pv, hpv⟩ := Option.isSome_iff_exists.mp (hinv.p_all a ha)
    obtain ⟨nv, hnv⟩ := Option.isSome_iff_exists.mp (hinv.n_all a ha)
    have hpz : pv = 0 := by
      have hmem := lookupW_mem _ _ _ hpv
      rw [(hmaps (computeFuel g)).1] at hmem
      exact hzp0 (a, pv) hmem
    have hnz : nv = 0 := by
      have hmem := lookupW_mem _ _ _ hnv
      rw [(hmaps (computeFuel g)).2] at hmem
      exact hzn0 (a, nv) hmem
    exact ⟨hpz ▸ hpv, hnz ▸ hnv⟩
  rw [compute_scores]
  rw [show (finalState g source).err = none from hinv.err_none]
  dsimp only
  rw [extractResults, extractFold_all_zero source (finalState g source)
    g.for_each_node [] hs hvals]
  simp

/-- Witness for C1 (amended): the absent source Z on the probe graph. -/
theorem c1_witness :
    compute_scores exampleGraphAbsent "Z"
      = .ok (exampleGraphAbsent.for_each_node.map (fun k => ⟨k, 0, 0⟩)) :=
  c1_compute_absent_source_all_zero exampleGraphAbsent "Z"
    (by with_unfolding_all decide) (by decide)

/-! ### Determinism modulo the tie order (Claim C9) -/

theorem popMax_is_max (pq : List (String × ℕ)) (e : String × ℕ)
    (rest : List (String × ℕ)) (h : popMax pq = some (e, rest)) :
    ∀ x ∈ pq, x.2 ≤ e.2 := by
  induction pq generalizing e rest with
  | nil => simp [popMax] at h
  | cons a t ih =>
    simp only [popMax] at h
    split at h
    · rename_i heq
      injection h with h
      obtain ⟨h1, -⟩ := (Prod.mk.injEq _ _ _ _).mp h
      subst h1
      have ht := (popMax_eq_none_iff t).mp heq
      subst ht
      intro x hx
      rcases List.mem_cons.mp hx with hx | hx
      · rw [hx]
      · simp at hx
    · rename_i m r heq
      split at h
      · rename_i hgt
        injection h with h
        obtain ⟨h1, -⟩ := (Prod.mk.injEq _ _ _ _).mp h
        subst h1
        intro x hx
        rcases List.mem_cons.mp hx with hx | hx
        · rw [hx]
          exact le_of_lt hgt
        · exact ih m r heq x hx
      · rename_i hle
        injection h with h
        obtain ⟨h1, -⟩ := (Prod.mk.injEq _ _ _ _).mp h
        subst h1
        push_neg at hle
        intro x hx
        rcases List.mem_cons.mp hx with hx | hx
        · rw [hx]
        · exact le_trans (ih m r heq x hx) hle

theorem popMaxLast_eq_none_iff (pq : List (String × ℕ)) :
    popMaxLast pq = none ↔ pq = [] := by
  cases pq with
  | nil => simp [popMaxLast]
  | cons a t =>
    simp only [popMaxLast]
    rcases ht : popMaxLast t with - | ⟨m, r⟩ <;> simp [ht]
    split <;> simp

theorem popMaxLast_mem (pq : List (String × ℕ)) (e : String × ℕ)
    (rest : List (String × ℕ)) (h : popMaxLast pq = some (e, rest)) : e ∈ pq := by
  induction pq generalizing e rest with
  | nil => simp [popMaxLast] at h
  | cons a t ih =>
    simp only [popMaxLast] at h
    split at h
    · injection h with h
      rw [(Prod.mk.injEq _ _ _ _).mp h |>.1.symm]
      exact List.mem_cons_self _ _
    · rename_i m r heq
      split at h
      · injection h with h
        rw [(Prod.mk.injEq _ _ _ _).mp h |>.1.symm]
        exact List.mem_cons_of_mem _ (ih m r heq)
      · injection h with h
        rw [(Prod.mk.injEq _ _ _ _).mp h |>.1.symm]
        exact List.mem_cons_self _ _

theorem popMaxLast_is_max (pq : List (String × ℕ)) (e : String × ℕ)
    (rest : List (String × ℕ)) (h : popMaxLast pq = some (e, rest)) :
    ∀ x ∈ pq, x.2 ≤ e.2 := by
  induction pq generalizing e rest with
  | nil => simp [popMaxLast] at h
  | cons a t ih =>
    simp only [popMaxLast] at h
    split at h
    · rename_i heq
      injection h with h
      obtain ⟨h1, -⟩ := (Prod.mk.injEq _ _ _ _).mp h
      subst h1
      have ht := (popMaxLast_eq_none_iff t).mp heq
      subst ht
      intro x hx
      rcases List.mem_cons.mp hx with hx | hx
      · rw [hx]
      · simp at hx
    · rename_i m r heq
      split at h
      · rename_i hge
        injection h with h
        obtain ⟨h1, -⟩ := (Prod.mk.injEq _ _ _ _).mp h
        subst h1
        intro x hx
        rcases List.mem_cons.mp hx with hx | hx
        · rw [hx]
          exact hge
        · exact ih m r heq x hx
      · rename_i hlt
        injection h with h
        obtain ⟨h1, -⟩ := (Prod.mk.injEq _ _ _ _).mp h
        subst h1
        push_neg at hlt
        intro x hx
        rcases List.mem_cons.mp hx with hx | hx
        · rw [hx]
        · exact le_trans (ih m r heq x hx) (le_of_lt hlt)

/-- When the maximal priority is attained by a single entry (and keys
are distinct), the two admissible pop orders coincide. -/
theorem popMaxLast_eq_popMax (pq : List (String × ℕ))
    (hnd : (pq.map Prod.fst).Nodup) (h : UniqueMaxPQ pq) :
    popMaxLast pq = popMax pq := by
  induction pq with
  | nil => rfl
  | cons a t ih =>
    simp only [List.map_cons, List.nodup_cons] at hnd
    rcases hm : popMax t with - | ⟨m, r⟩
    · have ht := (popMax_eq_none_iff t).mp hm
      subst ht
      rfl
    · rcases hl : popMaxLast t with - | ⟨m', r'⟩
      · rw [(popMaxLast_eq_none_iff t).mp hl] at hm
        simp [popMax] at hm
      · have hmm := popMax_is_max t m r hm
        have hmm' := popMaxLast_is_max t m' r' hl
        have hmem := popMax_mem t m r hm
        have hmem' := popMaxLast_mem t m' r' hl
        have heq2 : m'.2 = m.2 := le_antisymm (hmm m' hmem') (hmm' m hmem)
        rcases lt_trichotomy m.2 a.2 with hlt | heqa | hgt
        · simp only [popMax, popMaxLast, hm, hl]
          rw [if_neg (by omega), if_neg (by omega)]
        · exfalso
          have hmaxa : ∀ x ∈ a :: t, x.2 ≤ a.2 := by
            intro x hx
            rcases List.mem_cons.mp hx with hx | hx
            · rw [hx]
            · exact le_trans (hmm x hx) (le_of_eq heqa)
          have hmaxm : ∀ x ∈ a :: t, x.2 ≤ m.2 := by
            intro x hx
            rcases List.mem_cons.mp hx with hx | hx
            · rw [hx]
              exact le_of_eq heqa.symm
            · exact hmm x hx
          have ham := h a (List.mem_cons_self _ _) m
            (List.mem_cons_of_mem _ hmem) hmaxa hmaxm
          exact hnd.1 (ham ▸ List.mem_map_of_mem Prod.fst hmem)
        · have hUt : UniqueMaxPQ t := by
            intro x hx y hy hxmax hymax
            refine h x (List.mem_cons_of_mem _ hx) y (List.mem_cons_of_mem _ hy)
              ?_ ?_
            · intro z hz
              rcases List.mem_cons.mp hz with hz | hz
              · rw [hz]
                exact le_trans (le_of_lt hgt) (hxmax m hmem)
              · exact hxmax z hz
            · intro z hz
              rcases List.mem_cons.mp hz with hz | hz
              · rw [hz]
                exact le_trans (le_of_lt hgt) (hymax m hmem)
              · exact hymax z hz
          have hih := ih hnd.2 hUt
          rw [hl, hm] at hih
          injection hih with hih
          obtain ⟨h1, h2⟩ := (Prod.mk.injEq _ _ _ _).mp hih
          simp only [popMax, popMaxLast, hm, hl]
          rw [if_pos hgt, if_pos (by omega : m'.2 ≥ a.2), h1, h2]

theorem mem_keys_upsert {α : Type} (k : String) (v : α) (m : List (String × α))
    (x : String) (hx : x ∈ (upsert k v m).map Prod.fst) :
    x = k ∨ x ∈ m.map Prod.fst := by
  simp only [List.mem_map] at hx ⊢
  obtain ⟨e, he, hxe⟩ := hx
  rcases mem_upsert _ _ _ _ he with h | h
  · left
    rw [← hxe, h]
  · right
    exact ⟨e, h, hxe⟩

theorem upsert_keys_nodup {α : Type} (k : String) (v : α) (m : List (String × α))
    (hnd : (m.map Prod.fst).Nodup) : ((upsert k v m).map Prod.fst).Nodup := by
  induction m with
  | nil => simp [upsert]
  | cons e t ih =>
    obtain ⟨k0, w⟩ := e
    simp only [List.map_cons, List.nodup_cons] at hnd
    by_cases h0 : k0 = k
    · simp only [upsert, if_pos h0, List.map_cons, List.nodup_cons]
      exact ⟨h0 ▸ hnd.1, hnd.2⟩
    · simp only [upsert, if_neg h0, List.map_cons, List.nodup_cons]
      refine ⟨?_, ih hnd.2⟩
      intro hk0
      rcases mem_keys_upsert k v t k0 hk0 with h | h
      · exact h0 h
      · exact hnd.1 h

theorem popMax_rest_sublist (pq : List (String × ℕ)) (e : String × ℕ)
    (rest : List (String × ℕ)) (h : popMax pq = some (e, rest)) :
    rest.Sublist pq := by
  induction pq generalizing e rest with
  | nil => simp [popMax] at h
  | cons a t ih =>
    simp only [popMax] at h
    split at h
    · injection h with h
      obtain ⟨-, h2⟩ := (Prod.mk.injEq _ _ _ _).mp h
      rw [← h2]
      exact List.nil_sublist _
    · rename_i m r heq
      split at h
      · injection h with h
        obtain ⟨-, h2⟩ := (Prod.mk.injEq _ _ _ _).mp h
        rw [← h2]
        exact (ih m r heq).cons₂ a
      · injection h with h
        obtain ⟨-, h2⟩ := (Prod.mk.injEq _ _ _ _).mp h
        rw [← h2]
        exact List.sublist_cons_self a t

/-- The per-neighbour body either leaves the frontier alone or performs
one `upsert` on it. -/
theorem relaxNeighbor_pq_shape (g : Graph) (u : String) (ns : ℚ)
    (st : EngineState) (nb : String) :
    (relaxNeighbor g u ns st nb).pq = st.pq ∨
    ∃ pr, (relaxNeighbor g u ns st nb).pq = upsert nb pr st.pq := by
  simp only [relaxNeighbor]
  repeat' split
  all_goals try exact Or.inl rfl
  all_goals exact Or.inr ⟨_, rfl⟩

theorem foldl_relax_pq_keys_nodup (g : Graph) (u : String) (ns : ℚ)
    (l : List String) (st : EngineState)
    (hnd : (st.pq.map Prod.fst).Nodup) :
    (((l.foldl (relaxNeighbor g u ns) st).pq.map Prod.fst)).Nodup := by
  induction l generalizing st with
  | nil => exact hnd
  | cons a t ih =>
    rw [List.foldl_cons]
    refine ih _ ?_
    rcases relaxNeighbor_pq_shape g u ns st a with h | ⟨pr, h⟩
    · rw [h]
      exact hnd
    · rw [h]
      exact upsert_keys_nodup _ _ _ hnd

theorem stepLoop_pq_keys_nodup (g : Graph) (st : EngineState)
    (hnd : (st.pq.map Prod.fst).Nodup) :
    ((stepLoop g st).pq.map Prod.fst).Nodup := by
  rw [stepLoop]
  rcases hpop : popMax st.pq with - | ⟨⟨u, pr⟩, rest⟩
  · exact hnd
  · have hrest : (rest.map Prod.fst).Nodup :=
      hnd.sublist ((popMax_rest_sublist _ _ _ hpop).map Prod.fst)
    dsimp only
    by_cases hins : st.inspected.contains u
    · rw [if_pos hins]
      exact hrest
    · rw [if_neg hins]
      rcases hpu : lookupW st.p_scores u with - | pu <;> try dsimp only
      · exact hrest
      · rcases hnu : lookupW st.n_scores u with - | nu <;> try dsimp only
        · exact hrest
        · rcases hnb : g.for_each_neighbour u with e' | nbrs <;> try dsimp only
          · exact hrest
          · exact foldl_relax_pq_keys_nodup g u (max (pu - nu) 0) nbrs
              ⟨st.p_scores, st.n_scores, u :: st.inspected, rest, st.pushLog,
                st.pops + 1, st.relaxCount, st.err⟩ hrest

theorem initFold_pq_keys_nodup (source : String) (l : List String)
    (st : EngineState) (hnd : (st.pq.map Prod.fst).Nodup) :
    (((l.foldl (initNode source) st).pq.map Prod.fst)).Nodup := by
  induction l generalizing st with
  | nil => exact hnd
  | cons a t ih =>
    rw [List.foldl_cons]
    exact ih _ (upsert_keys_nodup _ _ _ hnd)

/-- Frontier keys stay distinct along the whole run. -/
theorem traj_pq_keys_nodup (g : Graph) (source : String) (k : ℕ) :
    ((loopIter g k (initState g source)).pq.map Prod.fst).Nodup := by
  induction k with
  | zero =>
    exact initFold_pq_keys_nodup source g.for_each_node EngineState.empty
      (by simp [EngineState.empty])
  | succ k ih =>
    rw [loopIter_succ_outer, haltStep]
    by_cases hh : (loopIter g k (initState g source)).halted
    · rw [if_pos hh]
      exact ih
    · rw [if_neg hh]
      exact stepLoop_pq_keys_nodup g _ ih

theorem loopIterLast_halted (g : Graph) (fuel : ℕ) (st : EngineState)
    (h : st.halted = true) : loopIterLast g fuel st = st := by
  cases fuel with
  | zero => rfl
  | succ f => simp [loopIterLast, h]

theorem loopIterLast_succ_outer (g : Graph) (k : ℕ) (st : EngineState) :
    loopIterLast g (k + 1) st = haltStepLast g (loopIterLast g k st) := by
  induction k generalizing st with
  | zero =>
    by_cases h : st.halted
    · simp [loopIterLast, haltStepLast, h]
    · simp [loopIterLast, haltStepLast, h]
  | succ k ih =>
    by_cases h : st.halted
    · rw [loopIterLast_halted g _ st h, loopIterLast_halted g _ st h,
        haltStepLast, if_pos h]
    · have h1 : loopIterLast g (k + 1 + 1) st
          = loopIterLast g (k + 1) (stepLoopLast g st) := by
        simp [loopIterLast, h]
      have h2 : loopIterLast g (k + 1) st = loopIterLast g k (stepLoopLast g st) := by
        simp [loopIterLast, h]
      rw [h1, ih, h2]

/-- When the pop is unambiguous, the two loop bodies agree. -/
theorem stepLoopLast_eq (g : Graph) (st : EngineState)
    (h : popMaxLast st.pq = popMax st.pq) : stepLoopLast g st = stepLoop g st := by
  rw [stepLoopLast, stepLoop, h]

/-- Bisimulation: while every reached frontier has a unique maximal
priority, the two admissible tie orders produce identical states. -/
theorem loopIterLast_eq_loopIter (g : Graph) (source : String) (n : ℕ)
    (h : ∀ k, k < n → UniqueMaxPQ (loopIter g k (initState g source)).pq) :
    loopIterLast g n (initState g source) = loopIter g n (initState g source) := by
  induction n with
  | zero => rfl
  | succ n ih =>
    have hrec := ih (fun k hk => h k (Nat.lt_succ_of_lt hk))
    rw [loopIterLast_succ_outer, loopIter_succ_outer, hrec, haltStepLast, haltStep]
    by_cases hh : (loopIter g n (initState g source)).halted
    · rw [if_pos hh, if_pos hh]
    · rw [if_neg hh, if_neg hh]
      exact stepLoopLast_eq g _ (popMaxLast_eq_popMax _
        (traj_pq_keys_nodup g source n) (h n (Nat.lt_succ_self n)))

/-- Claim C9, counterexample: on the tie graph (S→X 0.52, S→Y 0.50,
X→Y 1.0, source S) both X and Y carry quantized priority 5, and the two
admissible resolutions of the implementation-defined pop order — either
of which a fresh invocation of the code can realize, since
`out_neighbours` rebuilds a randomly seeded `HashSet` on every call —
yield different final scores for Y: 0.52 against 0.50. -/
theorem c9_counterexample :
    toU32 ((0.52 : ℚ) * 10) = toU32 ((0.5 : ℚ) * 10) ∧
    compute_scores exampleGraphTie "S" =
      .ok [⟨"X", 0.52, 0⟩, ⟨"Y", 0.52, 0⟩] ∧
    compute_scoresLast exampleGraphTie "S" =
      .ok [⟨"X", 0.52, 0⟩, ⟨"Y", 0.5, 0⟩] ∧
    (0.52 : ℚ) ≠ 0.5 := by
  refine ⟨by with_unfolding_all decide, by with_unfolding_all decide,
    by with_unfolding_all decide, by with_unfolding_all decide⟩

/-- Claim C9, amended: two invocations of `compute_scores` on the same
unmodified graph yield identical score values for every node provided
no pop ever faces two frontier entries tied at the maximal quantized
priority — under that proviso every admissible resolution of the
implementation-defined pop order, here the two extreme ones, produces
the same output; with a tie the resolutions (and hence invocations) can
disagree. -/
theorem c9_no_ties_deterministic (g : Graph) (source : String)
    (h : ∀ k, k < computeFuel g →
      UniqueMaxPQ (loopIter g k (initState g source)).pq) :
    compute_scores g source = compute_scoresLast g source := by
  rw [compute_scores, compute_scoresLast, finalState, finalStateLast,
    loopIterLast_eq_loopIter g source (computeFuel g) h]

/-- Witness for C9: Example A never produces a tied maximal priority,
so its two admissible runs agree. -/
theorem c9_witness :
    compute_scores exampleGraphA "A" = compute_scoresLast exampleGraphA "A" :=
  c9_no_ties_deterministic exampleGraphA "A" (by with_unfolding_all decide)

/-- Witness for C7: the three behaviours observed at concrete inputs. -/
theorem c7_witness :
    (Graph.new.add_positive_edge "A" "B" 0.7).get_positive_weight "A" "B" = .ok 0.7 ∧
    exampleGraphAbsent.get_positive_weight "A" "Q" = .ok 0 ∧
    exampleGraphAbsent.get_positive_weight "Q" "B" = .error (.NodeNotFound "Q") :=
  ⟨(c7_get_weight_spec.1 Graph.new "A" "B" 0.7).1,
   c7_get_weight_spec.2.1 exampleGraphAbsent "A" "Q" ⟨[("B", 0.5)], []⟩
     (by with_unfolding_all decide) (by decide),
   (c7_get_weight_spec.2.2.2 exampleGraphAbsent "Q" "B"
     (by with_unfolding_all decide)).1⟩

end TransitiveTrust
